import Mathlib

/-!
Verification of the tuzuku bytecode compiler and virtual machine.

This file gives a shallow embedding, in Lean 4, of the parts of the
tuzuku source (a small scripting language implemented as an AST
compiler plus a stack-based bytecode VM) that the frozen claims talk
about, and settles each claim against that embedding.

Embedding conventions:
* Rust `usize`/`u8` values become `Nat`; every place where the source
  performs a fallible conversion (`u8::try_from(..).unwrap()`) or can
  panic (asserts, `unwrap`, `todo!`, `unreachable!`, out-of-bounds
  indexing, `usize` subtraction underflow in debug builds) is modelled
  with `Except`, the panic becoming an explicit error value.
* `f64` numbers are modelled as `Rat`.  Every numeric literal the
  grammar accepts is a base-10 integer literal, and no claim exercises
  a computation where `f64` rounding differs from exact rational
  arithmetic.
* The Rust runtime allocates `Upvalue` and `Closure` objects through a
  leaking allocator and passes `NonNull` pointers around; the model
  keeps two explicit heaps (`uvHeap`, `clHeap`) addressed by `Nat`
  ids, allocation being an append.
* `value.rs` stores the stack as one `NonNull<[Option<Value>]>` array
  allocated once (`Stack::empty` is only reached from `Vm::initial`)
  and `#[derive(Clone)]` on `Stack` copies the pointer, so every
  `Stack` value in a run aliases the same storage.  The model therefore
  keeps a single `stackMem : List (Option Value)` in the machine state
  while a `Stack` value carries only its `sp` and `fp` fields.
* Raw pointers into the stack array are compared with `cmp` in the
  source; since the array is contiguous, address order on stack slots
  is slot-index order, and the model compares slot indices.  Comparing
  a pointer that no longer points into the stack (a closed upvalue's
  self-pointer) against a stack slot has no meaning at the source
  level; the model makes such a comparison an explicit error.
-/

namespace Tuzuku

/-! ## Bytecode opcodes (opcode.rs, `OpCode`) -/

/-- The opcode enumeration from `opcode.rs`, in declaration order, so
that `toByte` matches the `#[repr(u8)]` discriminants. -/
inductive OpCode where
  | nil
  | true_
  | false_
  | constant
  | print
  | pop
  | closeUpvalue
  | call
  | ret
  | add
  | sub
  | mul
  | div
  | getGlobal
  | setGlobal
  | getLocal
  | setLocal
  | getUpvalue
  | setUpvalue
  | closure
deriving DecidableEq

/-- `OpCode as u8` (the `#[repr(u8)]` discriminant). -/
def OpCode.toByte : OpCode → Nat
  | .nil => 0
  | .true_ => 1
  | .false_ => 2
  | .constant => 3
  | .print => 4
  | .pop => 5
  | .closeUpvalue => 6
  | .call => 7
  | .ret => 8
  | .add => 9
  | .sub => 10
  | .mul => 11
  | .div => 12
  | .getGlobal => 13
  | .setGlobal => 14
  | .getLocal => 15
  | .setLocal => 16
  | .getUpvalue => 17
  | .setUpvalue => 18
  | .closure => 19

/-- `OpCode::from_u8` (via `num_derive::FromPrimitive`): decode a byte
back to an opcode, `none` for an unknown byte. -/
def OpCode.ofByte : Nat → Option OpCode
  | 0 => some .nil
  | 1 => some .true_
  | 2 => some .false_
  | 3 => some .constant
  | 4 => some .print
  | 5 => some .pop
  | 6 => some .closeUpvalue
  | 7 => some .call
  | 8 => some .ret
  | 9 => some .add
  | 10 => some .sub
  | 11 => some .mul
  | 12 => some .div
  | 13 => some .getGlobal
  | 14 => some .setGlobal
  | 15 => some .getLocal
  | 16 => some .setLocal
  | 17 => some .getUpvalue
  | 18 => some .setUpvalue
  | 19 => some .closure
  | _ => none

/-! ## Chunks, constants and compile-time functions
(opcode.rs `Chunk`, constant.rs `Constant` / `Function`).

`Constant::Function` makes the three types mutually recursive (a chunk
holds constants, a function constant holds a chunk), so they are
declared in one mutual block. -/

mutual
/-- `constant.rs`: `Constant = Number(f64) | String | Function`. -/
inductive Constant where
  | number (n : Rat)
  | string (s : String)
  | function (f : Function)

/-- `constant.rs`: compile-time `Function { name, chunk, upvalues }`.
`value.rs`'s runtime `Function` has the same three fields and
`From<constant::Function>` copies them across, so one type models
both. -/
inductive Function where
  | mk (name : String) (chunk : Chunk) (upvalues : Nat)

/-- `opcode.rs`: `Chunk { code, lines, constants }`. -/
inductive Chunk where
  | mk (code : List Nat) (lines : List Nat) (constants : List Constant)
end

def Chunk.code : Chunk → List Nat
  | .mk c _ _ => c

def Chunk.lines : Chunk → List Nat
  | .mk _ l _ => l

def Chunk.constants : Chunk → List Constant
  | .mk _ _ cs => cs

def Function.name : Function → String
  | .mk n _ _ => n

def Function.chunk : Function → Chunk
  | .mk _ c _ => c

def Function.upvalues : Function → Nat
  | .mk _ _ u => u

/-! ## Source spans and the AST (ast.rs) -/

/-- `ast.rs`: half-open source span `[start, end)`. -/
structure Span where
  start : Nat
  stop : Nat
deriving DecidableEq

mutual
/-- `ast.rs`: `Ast { body, span }`. -/
inductive Ast where
  | mk (body : AstBody) (span : Span)

/-- `ast.rs`: the `AstBody` node forms. -/
inductive AstBody where
  | number (n : Rat)
  | string (s : String)
  | add (lhs rhs : Ast)
  | sub (lhs rhs : Ast)
  | mul (lhs rhs : Ast)
  | div (lhs rhs : Ast)
  | print (expr : Ast)
  | assign (ident : String) (expr : Ast)
  | var (ident : String)
  | varDecl (ident : String) (initializer : Option Ast)
  | funDecl (ident : String) (parameters : List String) (body : List Ast)
  | callExpr (callee : Ast) (arguments : List Ast)
  | exprStmt (expr : Ast)
  | root (stmts : List Ast)
end

def Ast.body : Ast → AstBody
  | .mk b _ => b

def Ast.span : Ast → Span
  | .mk _ s => s

/-! ## Line mapper (parser.rs, `LineMapper`) -/

/-- `LineMapper { lines }`: `lines[l] = idx` means line `l` starts at
char index `idx`. -/
structure LineMapper where
  lines : List Nat

/-- The loop body of `LineMapper::new`: for each `'\n'` at enumeration
index `i`, push `1 + i`.  `i₀` is the index of the first character of
the remaining list. -/
def newlineStarts : List Char → Nat → List Nat
  | [], _ => []
  | c :: rest, i =>
    if c = '\n' then (1 + i) :: newlineStarts rest (i + 1)
    else newlineStarts rest (i + 1)

/-- `LineMapper::new`: start from `vec![0]` and append a line start
after every newline character. -/
def LineMapper.new (source : List Char) : LineMapper :=
  ⟨0 :: newlineStarts source 0⟩

/-- `slice::binary_search` on a sorted `Vec<usize>`: the usual
halving loop on `[lo, hi)`.  Returns `.inl i` when `xs[i] = target`
(some such `i`) and `.inr l` with `l` the insertion point otherwise;
on a strictly sorted slice this is exactly Rust's contract.  The fuel
argument only makes the recursion structural (so that the kernel can
evaluate it); the interval shrinks at every step, so any fuel above
`hi - lo` never runs out. -/
def binarySearchAux (xs : List Nat) (target : Nat) : Nat → Nat → Nat → Nat ⊕ Nat
  | 0, lo, _ => .inr lo
  | fuel + 1, lo, hi =>
    if lo < hi then
      let mid := (lo + hi) / 2
      let v := xs.getD mid 0
      if v < target then binarySearchAux xs target fuel (mid + 1) hi
      else if target < v then binarySearchAux xs target fuel lo mid
      else .inl mid
    else .inr lo

/-- `LineMapper::find`: `Ok(l) => l + 1`, `Err(l) => l`.  `hi - lo`
shrinks every iteration, so `lines.length + 1` fuel always suffices
(proved in `binarySearchAux_spec`). -/
def LineMapper.find (m : LineMapper) (idx : Nat) : Nat :=
  match binarySearchAux m.lines idx (m.lines.length + 1) 0 m.lines.length with
  | .inl l => l + 1
  | .inr l => l

/-! ## The compiler (compiler.rs)

A Rust `Compiler` holds a reference to its parent compiler and mutates
ancestors through `Cell`/`RefCell` during upvalue resolution.  The
model threads the whole chain explicitly: the active compiler is a
`Frame` and its ancestors are a `List Frame`, innermost first; every
operation that can mutate the chain returns the updated frames. -/

/-- `compiler.rs`: `Local { ident, level, captured }`. -/
structure CLocal where
  ident : String
  level : Nat
  captured : Bool

/-- `Local::cont()`: the reserved slot-0 sentinel. -/
def CLocal.cont : CLocal := ⟨"<cont>", 0, false⟩

/-- `compiler.rs`: `enum Upvalue { InLocal { index }, InUpvalue { index } }`. -/
inductive CUpvalue where
  | inLocal (index : Nat)
  | inUpvalue (index : Nat)
deriving DecidableEq, BEq

/-- Compile-time fatal errors.  The source leaves them as
`u8::try_from(..).unwrap()` panics (see its `TODO: handle errors when
index overflows` comments). -/
inductive CompileErr where
  | overflow
  | internalBug
deriving DecidableEq

/-- `u8::try_from(n).unwrap()`. -/
def toU8 (n : Nat) : Except CompileErr Nat :=
  if n < 256 then .ok n else .error .overflow

/-- One compiler scope: the `ChunkBuilder` fields (`code`, `lines`,
`constants`) inlined next to `locals`, `current_level` and
`upvalues`. -/
structure Frame where
  code : List Nat
  lines : List Nat
  constants : List Constant
  locals : List CLocal
  currentLevel : Nat
  upvalues : List CUpvalue

/-- `Compiler::new`: one `<cont>` local at level 0, then
`begin_scope()` bumps the level from 0 to 1. -/
def Frame.new : Frame :=
  { code := [], lines := [], constants := [], locals := [CLocal.cont],
    currentLevel := 1, upvalues := [] }

/-- `Compiler::push_local`. -/
def Frame.pushLocal (f : Frame) (ident : String) : Frame :=
  { f with locals := f.locals ++ [⟨ident, f.currentLevel, false⟩] }

/-- `Compiler::with_parent`: a fresh scope with each parameter pushed
as a local. -/
def Frame.withParams (params : List String) : Frame :=
  params.foldl Frame.pushLocal Frame.new

/-- `Iterator::rposition`: index (from the front) of the last element
satisfying `p`. -/
def rposition (p : α → Bool) : List α → Option Nat
  | [] => none
  | x :: rest =>
    match rposition p rest with
    | some i => some (i + 1)
    | none => if p x then some 0 else none

/-- `Compiler::lookup_local`: `rposition` over the locals by name, the
index squeezed through `u8::try_from(..).unwrap()`. -/
def Frame.lookupLocal (f : Frame) (ident : String) : Except CompileErr (Option Nat) :=
  match rposition (fun l => l.ident == ident) f.locals with
  | none => .ok none
  | some i => do
      let i ← toU8 i
      .ok (some i)

/-- In-place update of list element `i` (used for
`locals[index].captured.set(true)`; the index always comes from
`lookup_local`, hence is in bounds). -/
def modifyAt (xs : List α) (i : Nat) (g : α → α) : List α :=
  match xs, i with
  | [], _ => []
  | x :: rest, 0 => g x :: rest
  | x :: rest, i + 1 => x :: modifyAt rest i g

/-- `Compiler::mark_captured`. -/
def Frame.markCaptured (f : Frame) (index : Nat) : Frame :=
  { f with locals := modifyAt f.locals index (fun l => { l with captured := true }) }

/-- `Compiler::push_upvalue`: dedup by equality, else append; returns
the slot index. -/
def Frame.pushUpvalue (f : Frame) (uv : CUpvalue) : Except CompileErr (Nat × Frame) :=
  match f.upvalues.findIdx? (fun u => u == uv) with
  | some i => do
      let i ← toU8 i
      .ok (i, f)
  | none => do
      let i ← toU8 f.upvalues.length
      .ok (i, { f with upvalues := f.upvalues ++ [uv] })

/-- `Compiler::lookup_upvalue` on the ancestor chain.  The first
component of the result is the upvalue index in `cur`; the rest is the
updated chain (`mark_captured` flips bits in ancestors, `push_upvalue`
extends upvalue vectors along the way). -/
def lookupUpvalue : Frame → List Frame → String → Except CompileErr (Option Nat × Frame × List Frame)
  | cur, [], _ => .ok (none, cur, [])
  | cur, parent :: rest, ident => do
      match ← parent.lookupLocal ident with
      | some parentLocalIndex =>
          let parent := parent.markCaptured parentLocalIndex
          let (idx, cur) ← cur.pushUpvalue (.inLocal parentLocalIndex)
          .ok (some idx, cur, parent :: rest)
      | none =>
          match ← lookupUpvalue parent rest ident with
          | (some parentUpvalueIndex, parent, rest) =>
              let (idx, cur) ← cur.pushUpvalue (.inUpvalue parentUpvalueIndex)
              .ok (some idx, cur, parent :: rest)
          | (none, parent, rest) => .ok (none, cur, parent :: rest)

/-- `compiler.rs`: `enum LookupResult`. -/
inductive LookupResult where
  | notFound
  | upvalue (index : Nat)
  | local_ (index : Nat)

/-- `Compiler::lookup`. -/
def lookupIdent (cur : Frame) (ancestors : List Frame) (ident : String) :
    Except CompileErr (LookupResult × Frame × List Frame) := do
  match ← cur.lookupLocal ident with
  | some i => .ok (.local_ i, cur, ancestors)
  | none =>
      match ← lookupUpvalue cur ancestors ident with
      | (some i, cur, ancestors) => .ok (.upvalue i, cur, ancestors)
      | (none, cur, ancestors) => .ok (.notFound, cur, ancestors)

/-- `ChunkBuilder::push_u8`. -/
def Frame.pushU8 (f : Frame) (byte : Nat) (line : Nat) : Frame :=
  { f with code := f.code ++ [byte], lines := f.lines ++ [line] }

/-- `ChunkBuilder::push_op`. -/
def Frame.pushOp (f : Frame) (op : OpCode) (line : Nat) : Frame :=
  f.pushU8 op.toByte line

/-- `ChunkBuilder::push_constant`: append, return the (u8) index. -/
def Frame.pushConstant (f : Frame) (c : Constant) : Except CompileErr (Nat × Frame) := do
  let i ← toU8 f.constants.length
  .ok (i, { f with constants := f.constants ++ [c] })

/-- The loop of `Compiler::end_scope`, expressed over the reversed
locals list (the source pops from the back of the vector): emitted
opcodes in emission order, paired with the surviving locals, still
reversed. -/
def endScopeOps (curLevel : Nat) : List CLocal → List OpCode × List CLocal
  | [] => ([], [])
  | l :: rest =>
      if l.level < curLevel then ([], l :: rest)
      else
        let op := if l.captured then OpCode.closeUpvalue else OpCode.pop
        let (ops, surviving) := endScopeOps curLevel rest
        (op :: ops, surviving)

/-- `Compiler::end_scope`: emit `CLOSE_UPVALUE`/`POP` for each local of
the closing level (most recent first), drop those locals, then
decrement the level. -/
def Frame.endScope (f : Frame) (line : Nat) : Frame :=
  let (ops, survivingRev) := endScopeOps f.currentLevel f.locals.reverse
  let g := ops.foldl (fun fr op => fr.pushOp op line) f
  { g with locals := survivingRev.reverse, currentLevel := f.currentLevel - 1 }

/-- `Compiler::build`. -/
def Frame.build (f : Frame) (name : String) : Function :=
  .mk name (.mk f.code f.lines f.constants) f.upvalues.length

/-- `Compiler::emit_set`: a `SET_GLOBAL` / `SET_UPVALUE` / `SET_LOCAL`
matching the resolution of `ident`. -/
def emitSet (cur : Frame) (ancestors : List Frame) (ident : String) (line : Nat) :
    Except CompileErr (Frame × List Frame) := do
  match ← lookupIdent cur ancestors ident with
  | (.notFound, cur, ancestors) => do
      let (index, cur) ← cur.pushConstant (.string ident)
      let cur := cur.pushOp .setGlobal line
      let cur := cur.pushU8 index line
      .ok (cur, ancestors)
  | (.upvalue index, cur, ancestors) =>
      let cur := cur.pushOp .setUpvalue line
      let cur := cur.pushU8 index line
      .ok (cur, ancestors)
  | (.local_ index, cur, ancestors) =>
      let cur := cur.pushOp .setLocal line
      let cur := cur.pushU8 index line
      .ok (cur, ancestors)

/-- The epilogue of the `AstBody::FunDecl` arm, applied to the child
scope once the body statements are compiled: `end_scope(end_line)`,
the implicit `NIL; RETURN`, then `build(ident)`. -/
def finishFunction (child : Frame) (ident : String) (endLine : Nat) : Function :=
  (((child.endScope endLine).pushOp .nil endLine).pushOp .ret endLine).build ident

mutual
/-- `Compiler::push`, one AST node.  `cur` is the active scope,
`ancestors` the parent chain (both threaded because resolution can
mutate them).  The source's `push_binop` helper is inlined into the
four operator arms, and the `FunDecl` arm inlines the nested
compilation (child scope, body, `finishFunction`), so that the
recursion is structural over the AST. -/
def pushAst (cur : Frame) (ancestors : List Frame) (mapper : LineMapper) :
    Ast → Except CompileErr (Frame × List Frame)
  | .mk (.number n) span => do
      let startLine := mapper.find span.start
      let (index, cur) ← cur.pushConstant (.number n)
      let cur := cur.pushOp .constant startLine
      .ok (cur.pushU8 index startLine, ancestors)
  | .mk (.string s) span => do
      let startLine := mapper.find span.start
      let (index, cur) ← cur.pushConstant (.string s)
      let cur := cur.pushOp .constant startLine
      .ok (cur.pushU8 index startLine, ancestors)
  | .mk (.print e) span => do
      let (cur, ancestors) ← pushAst cur ancestors mapper e
      .ok (cur.pushOp .print (mapper.find span.start), ancestors)
  | .mk (.add lhs rhs) _ => do
      let (cur, ancestors) ← pushAst cur ancestors mapper lhs
      let (cur, ancestors) ← pushAst cur ancestors mapper rhs
      .ok (cur.pushOp .add (mapper.find lhs.span.start), ancestors)
  | .mk (.sub lhs rhs) _ => do
      let (cur, ancestors) ← pushAst cur ancestors mapper lhs
      let (cur, ancestors) ← pushAst cur ancestors mapper rhs
      .ok (cur.pushOp .sub (mapper.find lhs.span.start), ancestors)
  | .mk (.mul lhs rhs) _ => do
      let (cur, ancestors) ← pushAst cur ancestors mapper lhs
      let (cur, ancestors) ← pushAst cur ancestors mapper rhs
      .ok (cur.pushOp .mul (mapper.find lhs.span.start), ancestors)
  | .mk (.div lhs rhs) _ => do
      let (cur, ancestors) ← pushAst cur ancestors mapper lhs
      let (cur, ancestors) ← pushAst cur ancestors mapper rhs
      .ok (cur.pushOp .div (mapper.find lhs.span.start), ancestors)
  | .mk (.root stmts) _ => pushAstList cur ancestors mapper stmts
  | .mk (.assign ident e) span => do
      let (cur, ancestors) ← pushAst cur ancestors mapper e
      emitSet cur ancestors ident (mapper.find span.start)
  | .mk (.var ident) span => do
      let startLine := mapper.find span.start
      match ← lookupIdent cur ancestors ident with
      | (.notFound, cur, ancestors) => do
          let (index, cur) ← cur.pushConstant (.string ident)
          let cur := cur.pushOp .getGlobal startLine
          .ok (cur.pushU8 index startLine, ancestors)
      | (.local_ index, cur, ancestors) =>
          let cur := cur.pushOp .getLocal startLine
          .ok (cur.pushU8 index startLine, ancestors)
      | (.upvalue index, cur, ancestors) =>
          let cur := cur.pushOp .getUpvalue startLine
          .ok (cur.pushU8 index startLine, ancestors)
  | .mk (.varDecl ident none) span =>
      let startLine := mapper.find span.start
      match ancestors with
      | _ :: _ =>
          -- Inside a function: allocate a stack slot (no initializer).
          .ok ((cur.pushLocal ident).pushOp .nil startLine, ancestors)
      | [] =>
          -- Top level: NIL then SET_GLOBAL.
          emitSet (cur.pushOp .nil startLine) ancestors ident startLine
  | .mk (.varDecl ident (some e)) span => do
      let startLine := mapper.find span.start
      match ancestors with
      | _ :: _ => do
          -- Inside a function: push the local record and allocate its
          -- slot BEFORE compiling the initializer, then set the local.
          let cur := cur.pushLocal ident
          let cur := cur.pushOp .nil startLine
          let (cur, ancestors) ← pushAst cur ancestors mapper e
          emitSet cur ancestors ident startLine
      | [] => do
          -- Top level: compile the value, then SET_GLOBAL.
          let (cur, ancestors) ← pushAst cur ancestors mapper e
          emitSet cur ancestors ident startLine
  | .mk (.funDecl ident parameters body) span => do
      let startLine := mapper.find span.start
      let endLine := mapper.find span.stop
      let child := Frame.withParams parameters
      let (child, chain) ← pushAstList child (cur :: ancestors) mapper body
      let fn := finishFunction child ident endLine
      match chain with
      | cur :: ancestors => do
          let (funConstIndex, cur) ← cur.pushConstant (.function fn)
          let cur := cur.pushOp .constant startLine
          let cur := cur.pushU8 funConstIndex startLine
          emitSet cur ancestors ident startLine
      | [] => .error .internalBug
  | .mk (.callExpr callee arguments) span => do
      let startLine := mapper.find span.start
      let (cur, ancestors) ← pushAst cur ancestors mapper callee
      let (cur, ancestors) ← pushAstList cur ancestors mapper arguments
      let cur := cur.pushOp .call startLine
      let argc ← toU8 arguments.length
      .ok (cur.pushU8 argc startLine, ancestors)
  | .mk (.exprStmt e) span => do
      let (cur, ancestors) ← pushAst cur ancestors mapper e
      .ok (cur.pushOp .pop (mapper.find span.start), ancestors)

/-- Sequential compilation of a statement list (the loop bodies of the
`Root`, `FunDecl` and `Call` arms). -/
def pushAstList (cur : Frame) (ancestors : List Frame) (mapper : LineMapper) :
    List Ast → Except CompileErr (Frame × List Frame)
  | [] => .ok (cur, ancestors)
  | ast :: rest => do
      let (cur, ancestors) ← pushAst cur ancestors mapper ast
      pushAstList cur ancestors mapper rest
end

/-- `compiler.rs`: top-level `compile`. -/
def compile (name : String) (ast : Ast) (mapper : LineMapper) : Except CompileErr Function := do
  let (cur, _) ← pushAst Frame.new [] mapper ast
  let cur := cur.endScope (mapper.find ast.span.stop)
  .ok (cur.build name)

/-! ## Runtime values and the VM (value.rs, vm.rs) -/

/-- `value.rs`: `const STACK_SIZE: usize = 1024`. -/
def STACK_SIZE : Nat := 1024

/-- An upvalue's `pointer: NonNull<Option<Value>>` aims either at a
stack slot (open) or at the upvalue's own `closed` field (closed). -/
inductive UvTarget where
  | slot (i : Nat)
  | ownClosed
deriving DecidableEq

/-- `value.rs`: run-time `Value`.  `Value::Return(Continuation)`
carries the continuation's closure pointer, ip, `Stack { values, sp,
fp }` and open-upvalue head; the shared `values` pointer is the single
global stack array (see the header comment), so only the scalar fields
are stored here. -/
inductive Value where
  | nil
  | boolean (b : Bool)
  | number (n : Rat)
  | string (s : String)
  | function (f : Function)
  | closure (id : Nat)
  | ret (closureId : Nat) (ip : Nat) (sp : Nat) (fp : Nat) (openHead : Option Nat)

/-- `value.rs`: `Upvalue { next, pointer, closed }`. -/
structure UpvalueObj where
  next : Option Nat
  pointer : UvTarget
  closed : Option Value

/-- `value.rs`: `Closure { function, upvalues }`. -/
structure ClosureObj where
  function : Function
  upvalues : List Nat

/-- The scalar fields of a live `Continuation` (its `Stack` contributes
`sp` and `fp`; the array is global). -/
structure Cont where
  closure : Nat
  ip : Nat
  sp : Nat
  fp : Nat
  openHead : Option Nat

/-- Every runtime panic (assert failure, `unwrap` on `None`, `todo!`,
`unreachable!`, indexing out of bounds, `usize` underflow in a debug
build) becomes one of these fatal errors. -/
inductive VmError where
  | checkFailed
  | underflow
  | indexOutOfBounds
  | unwrapNone
  | badType
  | notCallable
  | retNotContinuation
  | closureFreeUpvalues
  | closureTakesFunction
  | getGlobalNotString
  | setGlobalNotString
  | undefinedGlobal
  | unknownOpcode
  | closedAssert
  | headBeyondSlot
  | invalidPointerCompare
  | invalidHeapId
  | fuelExhausted
deriving DecidableEq

/-- The whole machine: the live continuation, the single shared stack
array, the global map (`vm.rs` `Global`), the two object heaps and the
`print` side-effect stream. -/
structure VmState where
  cont : Cont
  stackMem : List (Option Value)
  globals : List (String × Value)
  uvHeap : List UpvalueObj
  clHeap : List ClosureObj
  output : List String

/-- The `sp`/`fp` pair of a `Stack` (the array is global state). -/
structure Stack where
  sp : Nat
  fp : Nat

/-- `Stack::check`: `assert!(sp < STACK_SIZE); assert!(fp <= sp)`.
The additional per-slot scan under `#[cfg(debug_assertions)]` is not
compiled into release builds; here it is an invariant to be proved
(`StackWF`), not executed. -/
def Stack.check (s : Stack) : Bool :=
  decide (s.sp < STACK_SIZE) && decide (s.fp ≤ s.sp)

/-- `Stack::push`. -/
def Stack.push (s : Stack) (mem : List (Option Value)) (v : Value) :
    Except VmError (List (Option Value) × Stack) :=
  if s.check then .ok (mem.set s.sp (some v), ⟨s.sp + 1, s.fp⟩)
  else .error .checkFailed

/-- `Stack::pop`: returns the raw `Option<Value>` (callers `unwrap`);
`self.sp -= 1` underflows (a debug-build panic) when `sp = 0`. -/
def Stack.pop (s : Stack) (mem : List (Option Value)) :
    Except VmError (Option Value × List (Option Value) × Stack) :=
  if s.check then
    if s.sp = 0 then .error .underflow
    else .ok (mem.getD (s.sp - 1) none, mem.set (s.sp - 1) none, ⟨s.sp - 1, s.fp⟩)
  else .error .checkFailed

/-- `Stack::replace_at`: `assert!(index < sp)`, swap in the new value,
`unwrap` the old one. -/
def Stack.replaceAt (s : Stack) (mem : List (Option Value)) (index : Nat) (v : Value) :
    Except VmError (Value × List (Option Value)) :=
  if s.check then
    if index < s.sp then
      match mem.getD index none with
      | some old => .ok (old, mem.set index (some v))
      | none => .error .unwrapNone
    else .error .indexOutOfBounds
  else .error .checkFailed

/-- `Stack::get_local_ptr`: the absolute slot index `fp + offset`,
asserted to be below `sp`. -/
def Stack.getLocalPtr (s : Stack) (offset : Nat) : Except VmError Nat :=
  if s.check then
    if s.fp + offset < s.sp then .ok (s.fp + offset) else .error .indexOutOfBounds
  else .error .checkFailed

/-- `Stack::get_local`: clone the slot, `unwrap`. -/
def Stack.getLocal (s : Stack) (mem : List (Option Value)) (offset : Nat) :
    Except VmError Value := do
  let index ← s.getLocalPtr offset
  match mem.getD index none with
  | some v => .ok v
  | none => .error .unwrapNone

/-- `Stack::set_local`: `check` then `replace_at(fp + offset)`. -/
def Stack.setLocal (s : Stack) (mem : List (Option Value)) (offset : Nat) (v : Value) :
    Except VmError (List (Option Value)) :=
  if s.check then do
    let (_, mem) ← s.replaceAt mem (s.fp + offset) v
    .ok mem
  else .error .checkFailed

/-- The `Stack` view of the live continuation. -/
def VmState.stack (st : VmState) : Stack := ⟨st.cont.sp, st.cont.fp⟩

/-- Write back an updated `Stack` view. -/
def VmState.withStack (st : VmState) (mem : List (Option Value)) (s : Stack) : VmState :=
  { st with stackMem := mem, cont := { st.cont with sp := s.sp, fp := s.fp } }

/-- Dereference the live closure pointer. -/
def VmState.closureObj (st : VmState) : Except VmError ClosureObj :=
  match st.clHeap[st.cont.closure]? with
  | some c => .ok c
  | none => .error .invalidHeapId

/-- `Continuation::chunk`. -/
def VmState.chunk (st : VmState) : Except VmError Chunk := do
  let c ← st.closureObj
  .ok c.function.chunk

/-- `Continuation::code(increment)`: `code[ip + increment]` (indexing
panics out of bounds). -/
def VmState.codeAt (st : VmState) (increment : Nat) : Except VmError Nat := do
  let ch ← st.chunk
  match ch.code[st.cont.ip + increment]? with
  | some b => .ok b
  | none => .error .indexOutOfBounds

/-- Pop and `unwrap` (the `self.stack.pop().unwrap()` idiom of vm.rs). -/
def VmState.popUnwrap (st : VmState) : Except VmError (Value × VmState) := do
  let (popped, mem, s) ← st.stack.pop st.stackMem
  match popped with
  | some v => .ok (v, st.withStack mem s)
  | none => .error .unwrapNone

/-- Push onto the live stack. -/
def VmState.pushVal (st : VmState) (v : Value) : Except VmError VmState := do
  let (mem, s) ← st.stack.push st.stackMem v
  .ok (st.withStack mem s)

/-- `Continuation::advance`. -/
def VmState.advance (st : VmState) (increment : Nat) : VmState :=
  { st with cont := { st.cont with ip := st.cont.ip + increment } }

/-- `Continuation::call`: snapshot the current continuation as a
`Value::Return` (before any mutation), displace the callee with it,
promote a bare `Function` through `Closure::free` (which asserts
`function.upvalues == 0`), then jump: same stack and `sp`, `fp` moved
to the callee slot, `ip = 0`. -/
def VmState.callOp (st : VmState) (argLen : Nat) : Except VmError VmState :=
  let retVal : Value := .ret st.cont.closure st.cont.ip st.cont.sp st.cont.fp st.cont.openHead
  if st.cont.sp < argLen + 1 then .error .underflow
  else do
    let calleeIndex := st.cont.sp - argLen - 1
    let (callee, mem) ← st.stack.replaceAt st.stackMem calleeIndex retVal
    let (closureId, st) ←
      match callee with
      | .function f =>
          if f.upvalues = 0 then
            .ok (st.clHeap.length, { st with clHeap := st.clHeap ++ [⟨f, []⟩] })
          else .error (VmError.closureFreeUpvalues)
      | .closure id => .ok (id, st)
      | _ => .error .notCallable
    .ok { st with
          stackMem := mem,
          cont := { closure := closureId, ip := 0, sp := st.cont.sp, fp := calleeIndex,
                    openHead := st.cont.openHead } }

/-- Result of the open-upvalue walk in
`Continuation::get_or_create_upvalue_to_stack`. -/
inductive UvWalkResult where
  | found (id : Nat)
  | insertAt (prev : Option Nat) (current : Option Nat)
deriving DecidableEq

/-- The `while let` walk of `get_or_create_upvalue_to_stack`: advance
while the node's slot is above `target`, stop with `found` on an exact
match, otherwise report the splice point (`prev`, `current`).  The
list is finite and acyclic in any valid state; the fuel only makes the
recursion structural. -/
def uvWalk (heap : List UpvalueObj) (target : Nat) :
    Option Nat → Option Nat → Nat → Except VmError UvWalkResult
  | prev, none, _ => .ok (.insertAt prev none)
  | _, some _, 0 => .error .fuelExhausted
  | prev, some cid, fuel + 1 =>
      match heap[cid]? with
      | none => .error .invalidHeapId
      | some node =>
        match node.pointer with
        | .ownClosed => .error .invalidPointerCompare
        | .slot t =>
          if t < target then .ok (.insertAt prev (some cid))
          else if t = target then .ok (.found cid)
          else uvWalk heap target (some cid) node.next fuel

/-- `Continuation::get_or_create_upvalue_to_stack`: dedup on an exact
slot match, otherwise allocate `Upvalue::open(current, pointer)` and
splice it after `prev` (or at the head). -/
def VmState.getOrCreateUpvalueToStack (st : VmState) (index : Nat) :
    Except VmError (Nat × VmState) := do
  let pointer ← st.stack.getLocalPtr index
  match ← uvWalk st.uvHeap pointer none st.cont.openHead (st.uvHeap.length + 1) with
  | .found id => .ok (id, st)
  | .insertAt prev current =>
      let newId := st.uvHeap.length
      let heap := st.uvHeap ++ [⟨current, .slot pointer, none⟩]
      match prev with
      | some p =>
          .ok (newId, { st with
            uvHeap := modifyAt heap p (fun u => { u with next := some newId }) })
      | none =>
          .ok (newId,
            { st with uvHeap := heap, cont := { st.cont with openHead := some newId } })

/-- The reads `perform_closure` makes of a `CLOSURE` instruction's
operand bytes at `ip`: count at `ip + 1`, the i-th `(is_local, index)`
pair at `ip + 2 + 2*i` and `ip + 2 + 2*i + 1` (indexing panics out of
bounds, hence `Option`). -/
def vmClosureOperands (code : List Nat) (ip n : Nat) : Option (List (Bool × Nat)) :=
  (List.range n).mapM (fun idx => do
    let isLocalByte ← code[ip + 2 + 2 * idx]?
    let index ← code[ip + 2 + 2 * idx + 1]?
    pure (decide (isLocalByte > 0), index))

/-- The capture loop of `perform_closure`: `is_local` pairs call
`get_or_create_upvalue_to_stack`, others reuse
`closure.upvalues[index]` (after `assert!(index < len)`). -/
def captureUpvalues (st : VmState) : List (Bool × Nat) → Except VmError (List Nat × VmState)
  | [] => .ok ([], st)
  | (isLocal, index) :: rest =>
      if isLocal then do
        let (id, st) ← st.getOrCreateUpvalueToStack index
        let (ids, st) ← captureUpvalues st rest
        .ok (id :: ids, st)
      else do
        let clo ← st.closureObj
        match clo.upvalues[index]? with
        | some id => do
            let (ids, st) ← captureUpvalues st rest
            .ok (id :: ids, st)
        | none => .error .indexOutOfBounds

/-- `Continuation::perform_closure`: pop a `Function` (anything else is
`todo!`), capture the listed upvalues, allocate the closure, push it,
advance by `2 + 2n`.  (The source interleaves the byte reads with the
captures; the bytes come from the immutable chunk, so reading them
up-front is equivalent.) -/
def VmState.performClosure (st : VmState) : Except VmError VmState := do
  let (popped, st) ← st.popUnwrap
  let fn ← match popped with
    | .function f => .ok f
    | _ => .error VmError.closureTakesFunction
  let n ← st.codeAt 1
  let ch ← st.chunk
  let ops ← match vmClosureOperands ch.code st.cont.ip n with
    | some ops => .ok ops
    | none => .error VmError.indexOutOfBounds
  let (ids, st) ← captureUpvalues st ops
  let newId := st.clHeap.length
  let st := { st with clHeap := st.clHeap ++ [ClosureObj.mk fn ids] }
  let st ← st.pushVal (.closure newId)
  .ok (st.advance (2 + 2 * n))

/-- The slot loop of `Continuation::close_upvalue`, walking indices
from `newSp + count - 1` down to `newSp`: take the slot's value
(`unwrap`), and if the list head points exactly there, move the value
into `closed`, re-aim `pointer` at it and unlink the head; a head
pointing above the slot is `unreachable!`. -/
def closeUpvalueLoop (mem : List (Option Value)) (heap : List UpvalueObj)
    (head : Option Nat) (newSp : Nat) :
    Nat → Except VmError (List (Option Value) × List UpvalueObj × Option Nat)
  | 0 => .ok (mem, heap, head)
  | count + 1 =>
      let index := newSp + count
      match mem.getD index none with
      | none => .error .unwrapNone
      | some value =>
        let mem := mem.set index none
        match head with
        | none => closeUpvalueLoop mem heap head newSp count
        | some hid =>
          match heap[hid]? with
          | none => .error .invalidHeapId
          | some node =>
            match node.pointer with
            | .ownClosed => .error .invalidPointerCompare
            | .slot t =>
              if t < index then closeUpvalueLoop mem heap (some hid) newSp count
              else if t = index then
                match node.closed with
                | some _ => .error .closedAssert
                | none =>
                    closeUpvalueLoop mem
                      (heap.set hid ⟨none, .ownClosed, some value⟩)
                      node.next newSp count
              else .error .headBeyondSlot

/-- `Continuation::close_upvalue(new_sp)`: `check`,
`assert!(new_sp < sp)`, run the loop top-down, rewind `sp`, `check`
again. -/
def VmState.closeUpvalue (st : VmState) (newSp : Nat) : Except VmError VmState :=
  if st.stack.check then
    if newSp < st.cont.sp then do
      let (mem, heap, head) ←
        closeUpvalueLoop st.stackMem st.uvHeap st.cont.openHead newSp (st.cont.sp - newSp)
      let st := { st with stackMem := mem, uvHeap := heap,
                            cont := { st.cont with sp := newSp, openHead := head } }
      if st.stack.check then .ok st else .error .checkFailed
    else .error .indexOutOfBounds
  else .error .checkFailed

/-- `Continuation::perform_return`: pop the return value, read slot
`fp` (must be a `Value::Return`), close everything in the frame, then
restore the saved continuation, overwrite its (stale) `sp` with the
current one and push the return value. -/
def VmState.performReturn (st : VmState) : Except VmError VmState := do
  let fp := st.cont.fp
  let (returnValue, st) ← st.popUnwrap
  let continuation ← st.stack.getLocal st.stackMem 0
  let st ← st.closeUpvalue fp
  match continuation with
  | .ret closureId ip _staleSp savedFp savedHead => do
      let restored : Stack := ⟨st.cont.sp, savedFp⟩
      let (mem, s) ← restored.push st.stackMem returnValue
      .ok { st with stackMem := mem,
                    cont := { closure := closureId, ip := ip, sp := s.sp, fp := savedFp,
                              openHead := savedHead } }
  | _ => .error .retNotContinuation

/-- `Continuation::get_upvalue`: resolve `closure.upvalues[index]`
(after `assert!(index < function.upvalues)`) and read through its
pointer. -/
def VmState.getUpvalue (st : VmState) (index : Nat) : Except VmError Value := do
  let clo ← st.closureObj
  if index < clo.function.upvalues then
    match clo.upvalues[index]? with
    | some uvId =>
      match st.uvHeap[uvId]? with
      | some node =>
        match node.pointer with
        | .slot i =>
            match st.stackMem.getD i none with
            | some v => .ok v
            | none => .error .unwrapNone
        | .ownClosed =>
            match node.closed with
            | some v => .ok v
            | none => .error .unwrapNone
      | none => .error .invalidHeapId
    | none => .error .indexOutOfBounds
  else .error .indexOutOfBounds

/-- `Continuation::set_upvalue`: write `Some(value)` through the same
pointer. -/
def VmState.setUpvalue (st : VmState) (index : Nat) (v : Value) :
    Except VmError VmState := do
  let clo ← st.closureObj
  if index < clo.function.upvalues then
    match clo.upvalues[index]? with
    | some uvId =>
      match st.uvHeap[uvId]? with
      | some node =>
        match node.pointer with
        | .slot i => .ok { st with stackMem := st.stackMem.set i (some v) }
        | .ownClosed =>
            .ok { st with uvHeap := st.uvHeap.set uvId { node with closed := some v } }
      | none => .error .invalidHeapId
    | none => .error .indexOutOfBounds
  else .error .indexOutOfBounds

/-- vm.rs `Global`: lookup in the `definitions` map
(`HashMap::index`, which panics when the key is absent, is modelled by
the caller turning `none` into a fatal error). -/
def lookupGlobal : List (String × Value) → String → Option Value
  | [], _ => none
  | (k, v) :: rest, name => if k = name then some v else lookupGlobal rest name

/-- `HashMap::insert`: overwrite an existing binding, else add one. -/
def insertGlobal : List (String × Value) → String → Value → List (String × Value)
  | [], name, v => [(name, v)]
  | (k, w) :: rest, name, v =>
      if k = name then (k, v) :: rest else (k, w) :: insertGlobal rest name v

/-- `f64`'s `Display` restricted to the values claims print: a
whole-valued number renders without a fractional part. -/
def ratDisplay (q : Rat) : String :=
  if q.den = 1 then toString q.num else toString q

/-- `Value::display` (value.rs).  The closure arm dereferences the
closure pointer for its function name, hence the state argument. -/
def VmState.displayValue (st : VmState) : Value → String
  | .nil => "<nil>"
  | .boolean true => "<true>"
  | .boolean false => "<false>"
  | .number n => ratDisplay n
  | .string s => s
  | .function f => "<function " ++ f.name ++ ">"
  | .closure id =>
      "<closure " ++ (match st.clHeap[id]? with
                      | some c => c.function.name
                      | none => "") ++ ">"
  | .ret _ ip sp fp _ =>
      "<return ip = " ++ toString ip ++ ", sp = " ++ toString sp ++
        ", fp = " ++ toString fp ++ ">"

/-- `From<Constant> for Value`. -/
def constantToValue : Constant → Value
  | .number n => .number n
  | .string s => .string s
  | .function f => .function f

/-- `Vm::binop`: pop rhs, pop lhs; both must be numbers. -/
def VmState.binop (st : VmState) (op : Rat → Rat → Rat) : Except VmError VmState := do
  let (rhs, st) ← st.popUnwrap
  let (lhs, st) ← st.popUnwrap
  match lhs, rhs with
  | .number l, .number r => do
      let st ← st.pushVal (.number (op l r))
      .ok (st.advance 1)
  | _, _ => .error .badType

/-- `Vm::step`: decode the byte at `ip` and dispatch.  The
`handler.call_function` side effect on `CALL` only feeds tracing /
snapshot output and is not part of the machine state. -/
def VmState.step (st : VmState) : Except VmError VmState := do
  let opByte ← st.codeAt 0
  match OpCode.ofByte opByte with
  | none => .error .unknownOpcode
  | some .nil => do
      let st ← st.pushVal .nil
      .ok (st.advance 1)
  | some .true_ => do
      let st ← st.pushVal (.boolean true)
      .ok (st.advance 1)
  | some .false_ => do
      let st ← st.pushVal (.boolean false)
      .ok (st.advance 1)
  | some .pop => do
      let (_, st) ← st.popUnwrap
      .ok (st.advance 1)
  | some .print => do
      let (v, st) ← st.popUnwrap
      let line := st.displayValue v
      .ok ({ st with output := st.output ++ [line] }.advance 1)
  | some .call => do
      let argLen ← st.codeAt 1
      let st := st.advance 2
      st.callOp argLen
  | some .ret => st.performReturn
  | some .constant => do
      let index ← st.codeAt 1
      let ch ← st.chunk
      match ch.constants[index]? with
      | none => .error .indexOutOfBounds
      | some c => do
          let st ← st.pushVal (constantToValue c)
          .ok (st.advance 2)
  | some .add => st.binop (fun a b => a + b)
  | some .sub => st.binop (fun a b => a - b)
  | some .mul => st.binop (fun a b => a * b)
  | some .div => st.binop (fun a b => a / b)
  | some .getGlobal => do
      let index ← st.codeAt 1
      let ch ← st.chunk
      match ch.constants[index]? with
      | some (.string name) =>
          match lookupGlobal st.globals name with
          | some v => do
              let st ← st.pushVal v
              .ok (st.advance 2)
          | none => .error .undefinedGlobal
      | some _ => .error .getGlobalNotString
      | none => .error .indexOutOfBounds
  | some .setGlobal => do
      let index ← st.codeAt 1
      let ch ← st.chunk
      match ch.constants[index]? with
      | some (.string name) => do
          let (v, st) ← st.popUnwrap
          let st := { st with globals := insertGlobal st.globals name v }
          .ok (st.advance 2)
      | some _ => .error .setGlobalNotString
      | none => .error .indexOutOfBounds
  | some .getLocal => do
      let offset ← st.codeAt 1
      let v ← st.stack.getLocal st.stackMem offset
      let st ← st.pushVal v
      .ok (st.advance 2)
  | some .setLocal => do
      let offset ← st.codeAt 1
      let (v, st) ← st.popUnwrap
      let mem ← st.stack.setLocal st.stackMem offset v
      .ok ({ st with stackMem := mem }.advance 2)
  | some .closure => st.performClosure
  | some .closeUpvalue =>
      if st.cont.sp = 0 then .error .underflow
      else do
        let st ← st.closeUpvalue (st.cont.sp - 1)
        .ok (st.advance 1)
  | some .getUpvalue => do
      let offset ← st.codeAt 1
      let v ← st.getUpvalue offset
      let st ← st.pushVal v
      .ok (st.advance 2)
  | some .setUpvalue => do
      let offset ← st.codeAt 1
      let (v, st) ← st.popUnwrap
      let st ← st.setUpvalue offset v
      .ok (st.advance 2)

/-- `Vm::initial`: promote the compiled function through
`Closure::free` (asserting zero upvalues) and start with a fresh
stack. -/
def VmState.initial (f : Function) : Except VmError VmState :=
  if f.upvalues = 0 then
    .ok { cont := { closure := 0, ip := 0, sp := 0, fp := 0, openHead := none },
          stackMem := List.replicate STACK_SIZE none,
          globals := [], uvHeap := [], clHeap := [ClosureObj.mk f []],
          output := [] }
  else .error .closureFreeUpvalues

/-- `Vm::done`: `ip >= code.len()`. -/
def VmState.done (st : VmState) : Except VmError Bool := do
  let ch ← st.chunk
  .ok (decide (st.cont.ip ≥ ch.code.length))

/-- The driver loop `while !vm.done() { vm.step(); }`, with fuel to
keep the recursion structural (exhaustion returns the state as-is, so
an `.error` result is always a genuine runtime panic). -/
def run (fuel : Nat) (st : VmState) : Except VmError VmState :=
  match fuel with
  | 0 => .ok st
  | fuel + 1 => do
      if (← st.done) then .ok st
      else
        run fuel (← st.step)

/-- Compile a program and start the VM on it (`Driver::run` with
`run = true`, minus the parsing stage). -/
def compileAndStart (ast : Ast) : Except VmError VmState :=
  match compile "initial code" ast (LineMapper.new []) with
  | .ok f => VmState.initial f
  | .error _ => .error .unknownOpcode

/-! ## Disassembler reads of a CLOSURE instruction
(opcode.rs, `Chunk::print_closure`). -/

/-- The reads `Chunk::print_closure` makes of the operand bytes of a
`CLOSURE` at `offset`: the count from `code[offset + 1]`, then for
each `i` the `is_local` flag from `code[offset + 1 + 2*i]` and the
index from `code[offset + 1 + 2*i + 1]`, each continuation line
showing `<index> (local|upvalue)`. -/
def disasmClosureOperands (code : List Nat) (offset n : Nat) : Option (List (Bool × Nat)) :=
  (List.range n).mapM (fun i => do
    let isLocalByte ← code[offset + 1 + 2 * i]?
    let index ← code[offset + 1 + 2 * i + 1]?
    pure (decide (isLocalByte > 0), index))

/-- `print_closure` returns `2 + 2 * upvalues` as the offset
increment. -/
def disasmClosureAdvance (n : Nat) : Nat := 2 + 2 * n

/-- `perform_closure` advances `ip` by `2 + 2 * upvalues_len`. -/
def vmClosureAdvance (n : Nat) : Nat := 2 + 2 * n

/-! ## Concrete programs used by the claims -/

/-- All-zero span for hand-written ASTs.  Spans only influence the
`lines` tables: with `LineMapper.new []` every offset maps to
line 1. -/
def zeroSpan : Span := ⟨0, 0⟩

/-- Shorthand for a node at `zeroSpan`. -/
def node (b : AstBody) : Ast := .mk b zeroSpan

/-- `fun f() { var l = 100; fun b() { print(l); } l = 400; b(); }
f();` — the expressible core of the spec's closure-escape scenario
(the inner function captures `l`, the enclosing function reassigns it
afterwards, then the inner function is invoked). -/
def captureProgram : Ast := node (.root [
  node (.funDecl "f" [] [
    node (.varDecl "l" (some (node (.number 100)))),
    node (.funDecl "b" [] [node (.print (node (.var "l")))]),
    node (.assign "l" (node (.number 400))),
    node (.exprStmt (node (.callExpr (node (.var "b")) [])))
  ]),
  node (.exprStmt (node (.callExpr (node (.var "f")) [])))
])

/-- What the compiler produces for the inner function `b` of
`captureProgram`: `GET_UPVALUE 0; PRINT; NIL; RETURN` with one
recorded upvalue. -/
def captureB : Function := .mk "b" (.mk [17, 0, 4, 0, 8] (List.replicate 5 1) []) 1

/-- The enclosing function `f` of `captureProgram`: note the byte
directly after `CONSTANT 1` (the function constant) is
`SET_GLOBAL 2`, not `CLOSURE`. -/
def captureF : Function := .mk "f"
  (.mk [0, 3, 0, 16, 1, 3, 1, 14, 2, 3, 3, 16, 1, 13, 4, 7, 0, 5, 6, 0, 8]
       (List.replicate 21 1)
       [.number 100, .function captureB, .string "b", .number 400, .string "b"]) 0

/-- The top-level pseudo-function of `captureProgram`. -/
def captureTop : Function := .mk "initial code"
  (.mk [3, 0, 14, 1, 13, 2, 7, 0, 5] (List.replicate 9 1)
       [.function captureF, .string "f", .string "f"]) 0

/-- `fun o(x) { fun i() { var x = x; print(x); } i(); } o(5);` — a
`var x = x;` declaration whose initializer mentions the declared name
while an enclosing binding of the same name exists. -/
def shadowProgram : Ast := node (.root [
  node (.funDecl "o" ["x"] [
    node (.funDecl "i" [] [
      node (.varDecl "x" (some (node (.var "x")))),
      node (.print (node (.var "x")))
    ]),
    node (.exprStmt (node (.callExpr (node (.var "i")) [])))
  ]),
  node (.exprStmt (node (.callExpr (node (.var "o")) [node (.number 5)])))
])

/-- The inner function `i` of `shadowProgram`:
`NIL; GET_LOCAL 1; SET_LOCAL 1; GET_LOCAL 1; PRINT; POP; NIL; RETURN`
— the initializer's `x` resolves to the fresh local slot 1, not to an
upvalue on the enclosing `x` (no `GET_UPVALUE`, zero upvalues). -/
def shadowInner : Function := .mk "i"
  (.mk [0, 15, 1, 16, 1, 15, 1, 4, 5, 0, 8] (List.replicate 11 1) []) 0

/-- The enclosing function `o` of `shadowProgram`. -/
def shadowOuter : Function := .mk "o"
  (.mk [3, 0, 14, 1, 13, 2, 7, 0, 5, 5, 0, 8] (List.replicate 12 1)
       [.function shadowInner, .string "i", .string "i"]) 0

/-- The top-level pseudo-function of `shadowProgram`. -/
def shadowTop : Function := .mk "initial code"
  (.mk [3, 0, 14, 1, 13, 2, 3, 3, 7, 1, 5] (List.replicate 11 1)
       [.function shadowOuter, .string "o", .string "o", .number 5]) 0

/-- A chunk holding a single `CLOSURE` instruction with one upvalue
pair `(is_local = 1, index = 5)`. -/
def closureDemoChunk : Chunk := .mk [19, 1, 1, 5] [1, 1, 1, 1] []

/-! ## Claim theorems -/

/-- **C1.** The claim says every compiled function declaration is
followed by a `CLOSURE n ...` instruction after the `CONSTANT` that
pushes the nested `Function` (with `n = 0` when nothing is captured).
The code does not: the `AstBody::FunDecl` arm emits `CONSTANT` and
then the binding set and nothing else, so the byte 19 (`CLOSURE`)
never appears in any of the three chunks of `captureProgram`, even
though the nested scope of `b` recorded one upvalue
(`captureB.upvalues = 1`). -/
theorem c1_fundecl_emits_no_closure :
    compile "initial code" captureProgram (LineMapper.new []) = .ok captureTop ∧
    captureF.chunk.code =
      [0, 3, 0, 16, 1, 3, 1, 14, 2, 3, 3, 16, 1, 13, 4, 7, 0, 5, 6, 0, 8] ∧
    captureB.upvalues = 1 ∧
    OpCode.closure.toByte ∉ captureTop.chunk.code ∧
    OpCode.closure.toByte ∉ captureF.chunk.code ∧
    OpCode.closure.toByte ∉ captureB.chunk.code :=
  ⟨rfl, rfl, rfl, by decide, by decide, by decide⟩

/-- **C2.** The claim's scenario (a closure escaping its frame,
observing the last value written before the enclosing return) cannot
run on this code: invoking an inner function that captures an
enclosing local reaches `Closure::free`'s
`assert_eq!(function.upvalues, 0)` and panics, because the compiler
never emitted the `CLOSURE` instruction that would have built a real
closure.  Running the expressible core of the scenario is fatal
instead of printing anything. -/
theorem c2_capture_invocation_is_fatal :
    (do
      let st ← compileAndStart captureProgram
      run 200 st) = Except.error VmError.closureFreeUpvalues := rfl

/-- **C6.** The claim says the disassembler and the VM decode a
`CLOSURE` instruction identically (pair `i` at bytes `o+2+2i`,
`o+3+2i`).  The VM does; `Chunk::print_closure` reads pair `i` at
`o+1+2i`, `o+2+2i`, so for `CLOSURE 1 (is_local=1, index=5)` at
offset 0 it re-reads the count byte as the `is_local` flag and prints
index 1 instead of 5.  Both sides do advance by `2 + 2n`. -/
theorem c6_disasm_vm_closure_decode_differ :
    vmClosureOperands closureDemoChunk.code 0 1 = some [(true, 5)] ∧
    disasmClosureOperands closureDemoChunk.code 0 1 = some [(true, 1)] ∧
    disasmClosureOperands closureDemoChunk.code 0 1 ≠
      vmClosureOperands closureDemoChunk.code 0 1 ∧
    disasmClosureAdvance 1 = vmClosureAdvance 1 :=
  ⟨rfl, rfl, by decide, rfl⟩

/-- **C8.** A function declaration with zero parameters and an empty
body: the child scope compiles nothing (`pushAstList` of `[]` is the
identity), its only local is the level-0 `<cont>` sentinel so the
scope close emits no `POP`/`CLOSE_UPVALUE`, and the finalized
`Function` has exactly the code `NIL; RETURN` and zero upvalues. -/
theorem c8_empty_fun_compiles_to_nil_return (ident : String) (endLine : Nat) :
    finishFunction (Frame.withParams []) ident endLine =
      .mk ident (.mk [OpCode.nil.toByte, OpCode.ret.toByte] [endLine, endLine] []) 0 ∧
    (Frame.withParams []).locals = [CLocal.cont] ∧
    ∀ (chain : List Frame) (mapper : LineMapper),
      pushAstList (Frame.withParams []) chain mapper [] = .ok (Frame.withParams [], chain) :=
  ⟨rfl, rfl, fun _ _ => rfl⟩

/-- `rposition` finds the appended element when it matches: the key
fact behind `var x = e;` resolution, since `lookup_local` scans from
the most recently pushed local backwards. -/
theorem rposition_append_singleton (p : α → Bool) (xs : List α) (a : α) (h : p a = true) :
    rposition p (xs ++ [a]) = some xs.length := by
  induction xs with
  | nil => simp [rposition, h]
  | cons x xs ih => simp [rposition, ih]

/-- **C10.** `var x = e;` at function scope pushes the local record
for `x` before compiling `e` (see the `varDecl` arm of `pushAst`), and
a lookup of `x` after `push_local` resolves to the newly allocated
slot, whatever was visible before; concretely, in `shadowProgram` the
initializer of `var x = x;` inside `i` compiles to `GET_LOCAL 1` (the
new slot) — no upvalue on the enclosing `x`, no global — and running
the program prints the nil display. -/
theorem c10_vardecl_initializer_sees_new_local :
    (∀ (f : Frame) (x : String), f.locals.length < 256 →
      (f.pushLocal x).lookupLocal x = Except.ok (some f.locals.length)) ∧
    compile "initial code" shadowProgram (LineMapper.new []) = .ok shadowTop ∧
    OpCode.getUpvalue.toByte ∉ shadowInner.chunk.code ∧
    OpCode.getGlobal.toByte ∉ shadowInner.chunk.code ∧
    shadowInner.upvalues = 0 ∧
    (do
      let st ← compileAndStart shadowProgram
      let fin ← run 200 st
      Except.ok fin.output) = Except.ok ["<nil>"] := by
  refine ⟨?_, rfl, by decide, by decide, rfl, rfl⟩
  intro f x hlen
  show (match rposition (fun l => l.ident == x) (f.locals ++ [⟨x, f.currentLevel, false⟩]) with
        | none => Except.ok none
        | some i => do
            let i ← toU8 i
            Except.ok (some i)) = Except.ok (some f.locals.length)
  rw [rposition_append_singleton (fun l => l.ident == x) f.locals ⟨x, f.currentLevel, false⟩
        (by simp)]
  simp only [toU8, if_pos hlen]
  rfl

/-- Witness for C10: the general lookup fact applied at a concrete
frame. -/
theorem c10_witness :
    Frame.new.locals.length < 256 ∧
    (Frame.new.pushLocal "y").lookupLocal "y" = Except.ok (some Frame.new.locals.length) :=
  ⟨by decide, c10_vardecl_initializer_sees_new_local.1 Frame.new "y" (by decide)⟩

/-! ## C9: line mapper correctness -/

/-- The claim's reference notion of a line start: offset 0, or `i + 1`
for a newline character at position `i` of the source.  (For an
out-of-range offset `getD` yields `' '`, which is not a newline.) -/
def isLineStart (source : List Char) (o : Nat) : Bool :=
  o == 0 || (decide (0 < o) && (source.getD (o - 1) ' ' == '\n'))

/-- The claim's reference value for `find`: the number of line starts
that are at most `idx` (every line start lies in
`0 .. source.length`). -/
def countLineStartsLE (source : List Char) (idx : Nat) : Nat :=
  ((List.range (source.length + 1)).filter
    (fun o => isLineStart source o && decide (o ≤ idx))).length

/-- `newlineStarts` enumerates `1 + i₀ + j` over the newline positions
`j` of the remaining characters. -/
theorem newlineStarts_eq (cs : List Char) (i0 : Nat) :
    newlineStarts cs i0 =
      ((List.range cs.length).filter (fun j => cs.getD j ' ' == '\n')).map
        (fun j => 1 + i0 + j) := by
  induction cs generalizing i0 with
  | nil => simp [newlineStarts]
  | cons c rest ih =>
      have hM : (((List.range rest.length).filter
            (fun j => rest.getD j ' ' == '\n')).map Nat.succ).map (fun j => 1 + i0 + j)
          = newlineStarts rest (i0 + 1) := by
        rw [ih, List.map_map]
        refine List.map_congr_left ?_
        intro a _
        simp only [Function.comp_apply]
        omega
      have hfil : (List.range (rest.length + 1)).filter
            (fun j => (c :: rest).getD j ' ' == '\n')
          = (if c = '\n' then [0] else []) ++
            ((List.range rest.length).filter (fun j => rest.getD j ' ' == '\n')).map
              Nat.succ := by
        rw [List.range_succ_eq_map, List.filter_cons, List.filter_map]
        by_cases hc : c = '\n'
        · simp [hc, Function.comp_def]
        · simp [hc, Function.comp_def]
      rw [List.length_cons, hfil]
      by_cases hc : c = '\n'
      · simp only [hc, if_pos, newlineStarts, List.map_append, List.map_cons, hM]
        simp
      · simp only [hc, if_neg, newlineStarts, List.map_append, hM]
        simp [hc]

/-- The line-start list built by `LineMapper::new` is exactly the
filtered range of the reference line starts. -/
theorem lineMapper_lines_eq (source : List Char) :
    (LineMapper.new source).lines =
      (List.range (source.length + 1)).filter (isLineStart source) := by
  have hsucc : ∀ j : Nat, isLineStart source (Nat.succ j) = (source.getD j ' ' == '\n') := by
    intro j
    simp [isLineStart]
  simp only [LineMapper.new, List.range_succ_eq_map, List.filter_cons]
  have h0 : isLineStart source 0 = true := by simp [isLineStart]
  simp only [h0, if_pos, List.filter_map, Function.comp_def, hsucc]
  rw [newlineStarts_eq]
  have harith : (fun j => 1 + 0 + j) = Nat.succ := by
    funext j
    omega
  rw [harith]

/-- The line-start list is strictly increasing. -/
theorem lineMapper_lines_pairwise (source : List Char) :
    List.Pairwise (fun a b => a < b) (LineMapper.new source).lines := by
  rw [lineMapper_lines_eq]
  exact List.Pairwise.sublist (List.filter_sublist _) (List.pairwise_lt_range _)

/-- Counting `≤ t` elements of a list that is `≤ t` exactly on its
first `k` indices gives `k`. -/
theorem countP_le_eq_split (xs : List Nat) (t : Nat) :
    ∀ (k : Nat), k ≤ xs.length →
      (∀ i, (h : i < xs.length) → i < k → xs[i] ≤ t) →
      (∀ i, (h : i < xs.length) → k ≤ i → t < xs[i]) →
      xs.countP (fun o => decide (o ≤ t)) = k := by
  induction xs with
  | nil =>
      intro k hk _ _
      simp only [List.length_nil, Nat.le_zero] at hk
      simp [hk]
  | cons x rest ih =>
      intro k hk h1 h2
      cases k with
      | zero =>
          have hx : ¬ (x ≤ t) := by
            have := h2 0 (by simp) (Nat.zero_le 0)
            simpa using this
          have hrest : rest.countP (fun o => decide (o ≤ t)) = 0 := by
            refine ih 0 (Nat.zero_le _) (fun i h hik => by omega) ?_
            intro i h _
            have := h2 (i + 1) (by simpa using Nat.succ_lt_succ h) (Nat.zero_le _)
            simpa using this
          simp [List.countP_cons, hx, hrest]
      | succ kk =>
          have hx : x ≤ t := by
            have := h1 0 (by simp) (Nat.succ_pos kk)
            simpa using this
          have hrest : rest.countP (fun o => decide (o ≤ t)) = kk := by
            refine ih kk (by simpa using hk) ?_ ?_
            · intro i h hik
              have := h1 (i + 1) (by simpa using Nat.succ_lt_succ h) (by omega)
              simpa using this
            · intro i h hik
              have := h2 (i + 1) (by simpa using Nat.succ_lt_succ h) (by omega)
              simpa using this
          simp [List.countP_cons, hx, hrest]

/-- Invariant-carrying specification of the binary-search loop: on a
strictly sorted list, with everything left of `lo` below the target
and everything from `hi` on above it, the `find`-style reading of the
result is the number of elements `≤ target`. -/
theorem binarySearchAux_spec (xs : List Nat) (t : Nat)
    (hp : List.Pairwise (fun a b => a < b) xs) :
    ∀ (fuel lo hi : Nat), hi ≤ xs.length → lo ≤ hi → hi - lo < fuel →
      (∀ i, (h : i < xs.length) → i < lo → xs[i] < t) →
      (∀ i, (h : i < xs.length) → hi ≤ i → t < xs[i]) →
      (match binarySearchAux xs t fuel lo hi with
       | .inl l => l + 1
       | .inr l => l) = xs.countP (fun o => decide (o ≤ t)) := by
  intro fuel
  induction fuel with
  | zero =>
      intro lo hi _ _ hfuel _ _
      omega
  | succ fuel ih =>
      intro lo hi hhi hlohi hfuel hlow hhigh
      rw [binarySearchAux]
      have hpg := List.pairwise_iff_getElem.mp hp
      by_cases hlt : lo < hi
      · simp only [if_pos hlt]
        have hmlo : lo ≤ (lo + hi) / 2 := by omega
        have hmhi : (lo + hi) / 2 < hi := by omega
        have hmlen : (lo + hi) / 2 < xs.length := by omega
        have hv : xs.getD ((lo + hi) / 2) 0 = xs[(lo + hi) / 2] :=
          List.getD_eq_getElem xs 0 hmlen
        by_cases h1 : xs.getD ((lo + hi) / 2) 0 < t
        · simp only [if_pos h1]
          refine ih ((lo + hi) / 2 + 1) hi hhi (by omega) (by omega) ?_ hhigh
          intro i h hilt
          rcases Nat.lt_or_ge i ((lo + hi) / 2) with hc | hc
          · exact lt_trans (hpg i ((lo + hi) / 2) h hmlen hc) (hv ▸ h1)
          · have hi_eq : i = (lo + hi) / 2 := by omega
            subst hi_eq
            exact hv ▸ h1
        · simp only [if_neg h1]
          by_cases h2 : t < xs.getD ((lo + hi) / 2) 0
          · simp only [if_pos h2]
            refine ih lo ((lo + hi) / 2) (by omega) (by omega) (by omega) hlow ?_
            intro i h hge
            rcases Nat.lt_or_ge ((lo + hi) / 2) i with hc | hc
            · exact lt_trans (hv ▸ h2) (hpg ((lo + hi) / 2) i hmlen h hc)
            · have hi_eq : i = (lo + hi) / 2 := by omega
              subst hi_eq
              exact hv ▸ h2
          · simp only [if_neg h2]
            have heq : xs[(lo + hi) / 2] = t := by omega
            show (lo + hi) / 2 + 1 = _
            refine (countP_le_eq_split xs t ((lo + hi) / 2 + 1) (by omega) ?_ ?_).symm
            · intro i h hik
              rcases Nat.lt_or_ge i ((lo + hi) / 2) with hc | hc
              · exact le_of_lt (heq ▸ hpg i ((lo + hi) / 2) h hmlen hc)
              · have hi_eq : i = (lo + hi) / 2 := by omega
                subst hi_eq
                exact le_of_eq heq
            · intro i h hik
              exact heq ▸ hpg ((lo + hi) / 2) i hmlen h (by omega)
      · simp only [if_neg hlt]
        show lo = _
        have hlo_eq : lo = hi := by omega
        refine (countP_le_eq_split xs t lo (by omega) ?_ ?_).symm
        · intro i h hik
          exact le_of_lt (hlow i h hik)
        · intro i h hik
          exact hhigh i h (by omega)

/-- `LineMapper::find` equals the count of list entries `≤ idx`, for
any strictly sorted `lines`. -/
theorem lineMapper_find_eq_countP (m : LineMapper) (idx : Nat)
    (hp : List.Pairwise (fun a b => a < b) m.lines) :
    m.find idx = m.lines.countP (fun o => decide (o ≤ idx)) := by
  have h := binarySearchAux_spec m.lines idx hp (m.lines.length + 1) 0 m.lines.length
    (le_refl _) (Nat.zero_le _) (by omega)
    (fun i h hi => by omega)
    (fun i h hge => by omega)
  exact h

/-- **C9.** For every source string and offset, `LineMapper::find`
returns the number of reference line starts (offset 0 and `i + 1` for
each newline at `i`) that are `≤ idx`, as computed by the binary
search over the sorted line-start list. -/
theorem c9_lineMapper_find_counts_line_starts (source : List Char) (idx : Nat) :
    (LineMapper.new source).find idx = countLineStartsLE source idx := by
  rw [lineMapper_find_eq_countP _ _ (lineMapper_lines_pairwise source),
      lineMapper_lines_eq source, countLineStartsLE]
  rw [List.countP_filter, List.countP_eq_length_filter]
  refine congrArg List.length (List.filter_congr ?_)
  intro o _
  exact Bool.and_comm _ _

/-! ## C7: global variable opcodes -/

/-- `Except.bind` on an `ok` value (the monadic glue of the VM's `do`
blocks). -/
theorem exbind_ok {α β : Type} (a : α) (f : α → Except VmError β) :
    (Except.ok a >>= f) = f a := rfl

/-- A valid closure pointer dereferences to its heap object. -/
theorem closureObj_eq (st : VmState) (clo : ClosureObj)
    (h : st.clHeap[st.cont.closure]? = some clo) : st.closureObj = .ok clo := by
  simp [VmState.closureObj, h]

/-- The chunk of the live closure. -/
theorem chunk_eq (st : VmState) (clo : ClosureObj)
    (h : st.clHeap[st.cont.closure]? = some clo) :
    st.chunk = .ok clo.function.chunk := by
  unfold VmState.chunk
  rw [closureObj_eq st clo h]
  rfl

/-- Reading a code byte through a valid closure pointer. -/
theorem codeAt_eq (st : VmState) (clo : ClosureObj) (i b : Nat)
    (h : st.clHeap[st.cont.closure]? = some clo)
    (hb : clo.function.chunk.code[st.cont.ip + i]? = some b) :
    st.codeAt i = .ok b := by
  unfold VmState.codeAt
  rw [chunk_eq st clo h, exbind_ok, hb]

/-- `pop().unwrap()` on a checked, non-empty stack whose top slot is
defined. -/
theorem popUnwrap_eq (st : VmState) (v : Value)
    (hchk : st.stack.check = true) (hsp : st.cont.sp ≠ 0)
    (hslot : st.stackMem.getD (st.cont.sp - 1) none = some v) :
    st.popUnwrap = .ok (v, st.withStack (st.stackMem.set (st.cont.sp - 1) none)
      ⟨st.cont.sp - 1, st.cont.fp⟩) := by
  unfold VmState.popUnwrap Stack.pop
  rw [hchk]
  show (if st.cont.sp = 0 then Except.error VmError.underflow
        else Except.ok (st.stackMem.getD (st.cont.sp - 1) none,
          st.stackMem.set (st.cont.sp - 1) none,
          (⟨st.cont.sp - 1, st.cont.fp⟩ : Stack))) >>= _ = _
  rw [if_neg hsp, exbind_ok, hslot]

/-- `HashMap::insert` then lookup of the same key. -/
theorem lookupGlobal_insert_self (g : List (String × Value)) (s : String) (v : Value) :
    lookupGlobal (insertGlobal g s v) s = some v := by
  induction g with
  | nil => simp [insertGlobal, lookupGlobal]
  | cons p rest ih =>
      by_cases hk : p.1 = s
      · simp [insertGlobal, lookupGlobal, hk]
      · simp [insertGlobal, lookupGlobal, hk, ih]

/-- `HashMap::insert` leaves other keys alone. -/
theorem lookupGlobal_insert_other (g : List (String × Value)) (s : String) (v : Value)
    (t : String) (h : t ≠ s) :
    lookupGlobal (insertGlobal g s v) t = lookupGlobal g t := by
  have hst : ¬ (s = t) := fun hh => h hh.symm
  induction g with
  | nil => simp [insertGlobal, lookupGlobal, hst]
  | cons p rest ih =>
      by_cases hk : p.1 = s
      · have hpt : ¬ (p.1 = t) := by
          rw [hk]
          exact hst
        simp [insertGlobal, lookupGlobal, hk, hpt, hst]
      · simp [insertGlobal, lookupGlobal, hk, ih]

/-- **C7.** With the current instruction a `GET_GLOBAL`/`SET_GLOBAL`
whose operand names the string constant `name`: `GET_GLOBAL` pushes
the bound value and advances, and is fatal (`HashMap::index` panic)
when `name` is unbound; `SET_GLOBAL` pops the top of the stack into
the global map — creating the entry if absent, overwriting it
otherwise, never failing for an unbound name — and advances. -/
theorem c7_global_ops (st : VmState) (clo : ClosureObj) (k : Nat) (name : String)
    (hclo : st.clHeap[st.cont.closure]? = some clo)
    (h1 : clo.function.chunk.code[st.cont.ip + 1]? = some k)
    (hk : clo.function.chunk.constants[k]? = some (.string name)) :
    (clo.function.chunk.code[st.cont.ip + 0]? = some OpCode.getGlobal.toByte →
      (∀ v, lookupGlobal st.globals name = some v → st.stack.check = true →
        st.step = .ok ((st.withStack (st.stackMem.set st.cont.sp (some v))
          ⟨st.cont.sp + 1, st.cont.fp⟩).advance 2)) ∧
      (lookupGlobal st.globals name = none → st.step = .error .undefinedGlobal)) ∧
    (clo.function.chunk.code[st.cont.ip + 0]? = some OpCode.setGlobal.toByte →
      st.stack.check = true → st.cont.sp ≠ 0 →
      ∀ v, st.stackMem.getD (st.cont.sp - 1) none = some v →
        st.step = .ok (({ st.withStack (st.stackMem.set (st.cont.sp - 1) none)
            ⟨st.cont.sp - 1, st.cont.fp⟩ with
              globals := insertGlobal st.globals name v }).advance 2)) ∧
    (∀ (g : List (String × Value)) (s : String) (w : Value),
      lookupGlobal (insertGlobal g s w) s = some w) ∧
    (∀ (g : List (String × Value)) (s : String) (w : Value) (t : String), t ≠ s →
      lookupGlobal (insertGlobal g s w) t = lookupGlobal g t) := by
  refine ⟨fun h0 => ⟨?_, ?_⟩, fun h0 hchk hsp v hslot => ?_,
    lookupGlobal_insert_self, fun g s w t ht => lookupGlobal_insert_other g s w t ht⟩
  · intro v hv hchk
    unfold VmState.step
    rw [codeAt_eq st clo 0 OpCode.getGlobal.toByte hclo h0, exbind_ok]
    show (do
        let index ← st.codeAt 1
        let ch ← st.chunk
        match ch.constants[index]? with
        | some (.string name) =>
            match lookupGlobal st.globals name with
            | some v => do
                let st ← st.pushVal v
                Except.ok (st.advance 2)
            | none => Except.error .undefinedGlobal
        | some _ => Except.error .getGlobalNotString
        | none => Except.error .indexOutOfBounds) = _
    rw [codeAt_eq st clo 1 k hclo h1, exbind_ok, chunk_eq st clo hclo, exbind_ok, hk]
    show (match lookupGlobal st.globals name with
          | some v => do
              let st ← st.pushVal v
              Except.ok (st.advance 2)
          | none => Except.error VmError.undefinedGlobal) = _
    rw [hv]
    show (do
        let st ← st.pushVal v
        Except.ok (st.advance 2)) = _
    unfold VmState.pushVal Stack.push
    rw [hchk]
    rfl
  · intro hnone
    unfold VmState.step
    rw [codeAt_eq st clo 0 OpCode.getGlobal.toByte hclo h0, exbind_ok]
    show (do
        let index ← st.codeAt 1
        let ch ← st.chunk
        match ch.constants[index]? with
        | some (.string name) =>
            match lookupGlobal st.globals name with
            | some v => do
                let st ← st.pushVal v
                Except.ok (st.advance 2)
            | none => Except.error .undefinedGlobal
        | some _ => Except.error .getGlobalNotString
        | none => Except.error .indexOutOfBounds) = _
    rw [codeAt_eq st clo 1 k hclo h1, exbind_ok, chunk_eq st clo hclo, exbind_ok, hk]
    show (match lookupGlobal st.globals name with
          | some v => do
              let st ← st.pushVal v
              Except.ok (st.advance 2)
          | none => Except.error VmError.undefinedGlobal) = _
    rw [hnone]
  · unfold VmState.step
    rw [codeAt_eq st clo 0 OpCode.setGlobal.toByte hclo h0, exbind_ok]
    show (do
        let index ← st.codeAt 1
        let ch ← st.chunk
        match ch.constants[index]? with
        | some (.string name) => do
            let (v, st) ← st.popUnwrap
            let st := { st with globals := insertGlobal st.globals name v }
            Except.ok (st.advance 2)
        | some _ => Except.error .setGlobalNotString
        | none => Except.error .indexOutOfBounds) = _
    rw [codeAt_eq st clo 1 k hclo h1, exbind_ok, chunk_eq st clo hclo, exbind_ok, hk]
    show (do
        let (v, st) ← st.popUnwrap
        let st := { st with globals := insertGlobal st.globals name v }
        Except.ok (st.advance 2)) = _
    rw [popUnwrap_eq st v hchk hsp hslot, exbind_ok]
    rfl

/-- Witness states for C7: a chunk `GET_GLOBAL 0; SET_GLOBAL 0` with
string constant `"x"`. -/
def c7Fn : Function := .mk "g" (.mk [13, 0, 14, 0] [1, 1, 1, 1] [.string "x"]) 0

/-- Machine about to execute the `GET_GLOBAL` of `c7Fn` with `"x"`
bound to 7. -/
def c7StateGet : VmState :=
  { cont := { closure := 0, ip := 0, sp := 0, fp := 0, openHead := none },
    stackMem := List.replicate STACK_SIZE none,
    globals := [("x", .number 7)],
    uvHeap := [], clHeap := [ClosureObj.mk c7Fn []], output := [] }

/-- Machine about to execute the `SET_GLOBAL` of `c7Fn`, with the
value 3 on top of the stack and `"x"` unbound. -/
def c7StateSet : VmState :=
  { cont := { closure := 0, ip := 2, sp := 1, fp := 0, openHead := none },
    stackMem := some (.number 3) :: List.replicate (STACK_SIZE - 1) none,
    globals := [],
    uvHeap := [], clHeap := [ClosureObj.mk c7Fn []], output := [] }

/-- Witness for C7: the theorem applied at `c7StateGet` (bound read)
and `c7StateSet` (write to an unbound name, which succeeds). -/
theorem c7_witness :
    c7StateGet.step = .ok ((c7StateGet.withStack
      (c7StateGet.stackMem.set c7StateGet.cont.sp (some (.number 7)))
      ⟨c7StateGet.cont.sp + 1, c7StateGet.cont.fp⟩).advance 2) ∧
    c7StateSet.step = .ok (({ c7StateSet.withStack
      (c7StateSet.stackMem.set (c7StateSet.cont.sp - 1) none)
      ⟨c7StateSet.cont.sp - 1, c7StateSet.cont.fp⟩ with
        globals := insertGlobal c7StateSet.globals "x" (.number 3) }).advance 2) :=
  ⟨((c7_global_ops c7StateGet (ClosureObj.mk c7Fn []) 0 "x" rfl rfl rfl).1 rfl).1
      (.number 7) rfl rfl,
   ((c7_global_ops c7StateSet (ClosureObj.mk c7Fn []) 0 "x" rfl rfl rfl).2.1 rfl)
      rfl (by decide) (.number 3) rfl⟩

/-! ## Open-upvalue chain machinery (for C3, C4, C5) -/


/-! ## Open-upvalue chains -/

inductive UvSeg (heap : List UpvalueObj) : Option Nat → List (Nat × Nat) → Option Nat → Prop where
  | nil (o : Option Nat) : UvSeg heap o [] o
  | cons (id t : Nat) (u : UpvalueObj) (rest : List (Nat × Nat)) (stop : Option Nat)
      (hu : heap[id]? = some u)
      (hp : u.pointer = .slot t)
      (hc : u.closed = none)
      (hrest : UvSeg heap u.next rest stop) :
      UvSeg heap (some id) ((id, t) :: rest) stop

def UvChain (heap : List UpvalueObj) (head : Option Nat) (l : List (Nat × Nat)) : Prop :=
  UvSeg heap head l none

def UvSorted (l : List (Nat × Nat)) : Prop :=
  List.Pairwise (fun a b => b.2 < a.2) l

theorem UvSeg.mem_spec {heap : List UpvalueObj} {h : Option Nat} {l : List (Nat × Nat)}
    {s : Option Nat} (hseg : UvSeg heap h l s) :
    ∀ p ∈ l, ∃ u, heap[p.1]? = some u ∧ u.pointer = .slot p.2 ∧ u.closed = none := by
  induction hseg with
  | nil => intro p hp; cases hp
  | cons id t u rest stop hu hp hc hrest ih =>
      intro p hmem
      rcases List.mem_cons.mp hmem with hhd | htl
      · subst hhd; exact ⟨u, hu, hp, hc⟩
      · exact ih p htl

theorem UvSeg.ids_lt {heap : List UpvalueObj} {h l s} (hseg : UvSeg heap h l s) :
    ∀ p ∈ l, p.1 < heap.length := by
  intro p hp
  obtain ⟨u, hu, -, -⟩ := hseg.mem_spec p hp
  exact (List.getElem?_eq_some_iff.mp hu).1

theorem UvSeg.ids_nodup {heap : List UpvalueObj} {h l s} (hseg : UvSeg heap h l s)
    (hs : UvSorted l) : (l.map Prod.fst).Nodup := by
  induction hseg with
  | nil => simp
  | cons id t u rest stop hu hp hc hrest ih =>
      simp only [List.map_cons, List.nodup_cons]
      refine ⟨?_, ih hs.of_cons⟩
      intro hmem
      obtain ⟨⟨i2, t2⟩, hmem2, hfst⟩ := List.mem_map.mp hmem
      simp only at hfst
      subst hfst
      obtain ⟨u2, hu2, hp2, -⟩ := hrest.mem_spec _ hmem2
      rw [hu] at hu2
      cases hu2
      rw [hp] at hp2
      cases hp2
      have := (List.pairwise_cons.mp hs).1 _ hmem2
      simp at this

theorem UvSeg.length_le {heap : List UpvalueObj} {h l s} (hseg : UvSeg heap h l s)
    (hs : UvSorted l) : l.length ≤ heap.length := by
  have hnd := hseg.ids_nodup hs
  have hsub : (l.map Prod.fst) ⊆ List.range heap.length := by
    intro x hx
    obtain ⟨p, hp, hpx⟩ := List.mem_map.mp hx
    subst hpx
    exact List.mem_range.mpr (hseg.ids_lt p hp)
  have := (List.subperm_of_subset hnd hsub).length_le
  simpa using this



theorem length_modifyAt (xs : List α) (j : Nat) (g : α → α) :
    (modifyAt xs j g).length = xs.length := by
  induction xs generalizing j with
  | nil => rfl
  | cons x rest ih =>
      cases j with
      | zero => rfl
      | succ j => simp [modifyAt, ih]

theorem getElem?_modifyAt_ne (xs : List α) (j i : Nat) (g : α → α) (h : j ≠ i) :
    (modifyAt xs j g)[i]? = xs[i]? := by
  induction xs generalizing i j with
  | nil => rfl
  | cons x rest ih =>
      cases j with
      | zero =>
          cases i with
          | zero => exact absurd rfl h
          | succ i => rfl
      | succ j =>
          cases i with
          | zero => simp [modifyAt]
          | succ i => simpa [modifyAt] using ih j i (fun hh => h (by omega))

theorem getElem?_modifyAt_self (xs : List α) (j : Nat) (g : α → α) (h : j < xs.length) :
    (modifyAt xs j g)[j]? = xs[j]?.map g := by
  induction xs generalizing j with
  | nil => simp at h
  | cons x rest ih =>
      cases j with
      | zero => simp [modifyAt]
      | succ j => simpa [modifyAt] using ih j (by simpa using h)

theorem UvSeg.append_heap {heap hs : List UpvalueObj} {h l s} (hseg : UvSeg heap h l s) :
    UvSeg (heap ++ hs) h l s := by
  induction hseg with
  | nil o => exact .nil o
  | cons id t u rest stop hu hp hc hrest ih =>
      refine .cons id t u rest stop ?_ hp hc ih
      rw [List.getElem?_append_left (List.getElem?_eq_some_iff.mp hu).1]
      exact hu

theorem UvSeg.modifyAt_outside {heap : List UpvalueObj} {h l s} (hseg : UvSeg heap h l s)
    (j : Nat) (g : UpvalueObj → UpvalueObj) (hj : ∀ p ∈ l, p.1 ≠ j) :
    UvSeg (modifyAt heap j g) h l s := by
  induction hseg with
  | nil o => exact .nil o
  | cons id t u rest stop hu hp hc hrest ih =>
      refine .cons id t u rest stop ?_ hp hc (ih (fun p hp => hj p (List.mem_cons_of_mem _ hp)))
      rw [getElem?_modifyAt_ne heap j id g (fun hh => hj (id, t) (List.mem_cons_self _ _) hh.symm)]
      exact hu

/-- The id the walk's `prev` holds after traversing `l` (the input
`prev` when `l` is empty, the last node's id otherwise). -/
def lastIdFrom (prev : Option Nat) : List (Nat × Nat) → Option Nat
  | [] => prev
  | p :: rest => lastIdFrom (some p.1) rest

/-- The entry pointer of a (possibly empty) tail of the chain. -/
def headIdOf : List (Nat × Nat) → Option Nat
  | [] => none
  | p :: _ => some p.1

theorem lastIdFrom_mem {l : List (Nat × Nat)} :
    ∀ {prev p}, lastIdFrom prev l = some p → (p ∈ l.map Prod.fst) ∨ prev = some p := by
  induction l with
  | nil => intro prev p h; exact Or.inr h
  | cons q rest ih =>
      intro prev p h
      rcases ih h with hm | hp
      · exact Or.inl (List.mem_cons_of_mem _ hm)
      · cases hp
        exact Or.inl (List.mem_cons_self _ _)

theorem UvSeg.compose {heap : List UpvalueObj} {h l1 mid l2 s}
    (h1 : UvSeg heap h l1 mid) (h2 : UvSeg heap mid l2 s) :
    UvSeg heap h (l1 ++ l2) s := by
  induction h1 with
  | nil => simpa using h2
  | cons id t u rest stop hu hp hc hrest ih =>
      exact .cons id t u _ _ hu hp hc (ih h2)

/-- The entry pointer of `l2` within a chain `l1 ++ l2` ending at `s`. -/
def entryOf (l2 : List (Nat × Nat)) (s : Option Nat) : Option Nat :=
  match l2 with
  | [] => s
  | p :: _ => some p.1

theorem UvSeg.split {heap : List UpvalueObj} {s} :
    ∀ {l1 l2 : List (Nat × Nat)} {h : Option Nat}, UvSeg heap h (l1 ++ l2) s →
      UvSeg heap h l1 (entryOf l2 s) ∧ UvSeg heap (entryOf l2 s) l2 s := by
  intro l1
  induction l1 with
  | nil =>
      intro l2 h hseg
      simp only [List.nil_append] at hseg
      cases l2 with
      | nil => cases hseg with | nil => exact ⟨.nil _, .nil _⟩
      | cons p rest =>
          cases hseg with
          | cons id t u _ _ hu hp hc hr =>
              exact ⟨.nil _, .cons id t u _ _ hu hp hc hr⟩
  | cons q l1 ih =>
      intro l2 h hseg
      cases hseg with
      | cons id t u rest stop hu hp hc hrest =>
          obtain ⟨h1, h2⟩ := ih hrest
          exact ⟨.cons id t u _ _ hu hp hc h1, h2⟩

theorem UvSeg.patch_last {heap : List UpvalueObj} (newNext : Option Nat) :
    ∀ {l1 : List (Nat × Nat)} {h mid : Option Nat} {p : Nat},
      UvSeg heap h l1 mid → (l1.map Prod.fst).Nodup →
      lastIdFrom none l1 = some p →
      UvSeg (modifyAt heap p (fun u => { u with next := newNext })) h l1 newNext := by
  intro l1
  induction l1 with
  | nil =>
      intro h mid p _ _ hlast
      cases hlast
  | cons q rest ih =>
      intro h mid p hseg hnd hlast
      cases hseg with
      | cons id t u r st hu hp hc hrest =>
          cases rest with
          | nil =>
              -- q = (id, t) is the last node: p = id
              have hpid : p = id := by
                simpa [lastIdFrom] using hlast.symm
              subst hpid
              have hlen : p < heap.length := (List.getElem?_eq_some_iff.mp hu).1
              refine .cons p t { u with next := newNext } [] newNext ?_ hp hc (.nil _)
              rw [getElem?_modifyAt_self heap p _ hlen, hu]
              rfl
          | cons q2 rest2 =>
              -- the last node is inside the nonempty tail
              have hlast2 : lastIdFrom none (q2 :: rest2) = some p := by
                simpa [lastIdFrom] using hlast
              have hmem : p ∈ (q2 :: rest2).map Prod.fst := by
                rcases lastIdFrom_mem hlast2 with hm | hcontra
                · exact hm
                · cases hcontra
              have hne : id ≠ p := by
                intro hh
                subst hh
                have := (List.nodup_cons.mp hnd).1
                simp only [List.map_cons] at this hmem
                exact this (by simpa using hmem)
              refine .cons id t u _ newNext ?_ hp hc
                (ih hrest (List.nodup_cons.mp hnd).2 hlast2)
              rw [getElem?_modifyAt_ne heap p id _ (fun hh => hne hh.symm)]
              exact hu



theorem uvWalk_found (heap : List UpvalueObj) (a id : Nat) :
    ∀ (l : List (Nat × Nat)) (current stop : Option Nat) (fuel : Nat) (prev : Option Nat),
      UvSeg heap current l stop → UvSorted l → (id, a) ∈ l → l.length < fuel →
      uvWalk heap a prev current fuel = .ok (.found id) := by
  intro l
  induction l with
  | nil =>
      intro current stop fuel prev _ _ hmem _
      cases hmem
  | cons q rest ih =>
      intro current stop fuel prev hseg hs hmem hfuel
      cases hseg with
      | cons id0 t0 u _ _ hu hp hc hrest =>
          cases fuel with
          | zero => omega
          | succ fuel =>
              rw [uvWalk]
              simp only [hu, hp]
              rcases List.mem_cons.mp hmem with hhd | htl
              · -- the head is the match
                obtain ⟨hid, ha⟩ := Prod.mk.injEq .. ▸ hhd
                have h1 : ¬ (t0 < a) := by omega
                have h2 : t0 = a := ha.symm ▸ rfl
                rw [if_neg h1, if_pos h2, hid]
              · -- head is above the target, keep walking
                have hgt : a < t0 := by
                  have := (List.pairwise_cons.mp hs).1 (id, a) htl
                  simpa using this
                rw [if_neg (by omega : ¬ (t0 < a)), if_neg (by omega : ¬ (t0 = a))]
                exact ih u.next _ fuel (some id0) hrest hs.of_cons htl (by simpa using hfuel)

theorem uvWalk_insert (heap : List UpvalueObj) (a : Nat) :
    ∀ (l : List (Nat × Nat)) (current : Option Nat) (fuel : Nat) (prev : Option Nat),
      UvChain heap current l → UvSorted l → a ∉ l.map Prod.snd → l.length < fuel →
      uvWalk heap a prev current fuel =
        .ok (.insertAt (lastIdFrom prev (l.takeWhile (fun p => decide (a < p.2))))
                       (headIdOf (l.dropWhile (fun p => decide (a < p.2))))) := by
  intro l
  induction l with
  | nil =>
      intro current fuel prev hch _ _ _
      cases hch with
      | nil => cases fuel <;> rfl
  | cons q rest ih =>
      intro current fuel prev hch hs hnot hfuel
      cases hch with
      | cons id0 t0 u _ _ hu hp hc hrest =>
          cases fuel with
          | zero => omega
          | succ fuel =>
              rw [uvWalk]
              simp only [hu, hp]
              have hne : t0 ≠ a := by
                intro hh
                exact hnot (by simp [hh.symm])
              by_cases hlt : t0 < a
              · rw [if_pos hlt]
                have htw : ((id0, t0) :: rest).takeWhile (fun p => decide (a < p.2)) = [] := by
                  simp [List.takeWhile_cons]
                  omega
                have hdw : ((id0, t0) :: rest).dropWhile (fun p => decide (a < p.2)) =
                    (id0, t0) :: rest := by
                  simp [List.dropWhile_cons]
                  omega
                rw [htw, hdw]
                rfl
              · have hgt : a < t0 := by omega
                rw [if_neg hlt, if_neg hne]
                have htw : ((id0, t0) :: rest).takeWhile (fun p => decide (a < p.2)) =
                    (id0, t0) :: rest.takeWhile (fun p => decide (a < p.2)) := by
                  simp [List.takeWhile_cons, hgt]
                have hdw : ((id0, t0) :: rest).dropWhile (fun p => decide (a < p.2)) =
                    rest.dropWhile (fun p => decide (a < p.2)) := by
                  simp [List.dropWhile_cons, hgt]
                rw [htw, hdw]
                have := ih u.next fuel (some id0) hrest hs.of_cons
                  (fun hh => hnot (by simp [hh])) (by simpa using hfuel)
                rw [this]
                rfl



theorem dropWhile_snd_lt (a : Nat) :
    ∀ (l : List (Nat × Nat)), UvSorted l → a ∉ l.map Prod.snd →
      ∀ q ∈ l.dropWhile (fun p => decide (a < p.2)), q.2 < a := by
  intro l
  induction l with
  | nil => simp
  | cons p rest ih =>
      intro hs hnot
      rw [List.dropWhile_cons]
      by_cases hlt : a < p.2
      · rw [if_pos (by simpa using hlt)]
        exact ih hs.of_cons (fun hh => hnot (by simp [hh]))
      · have hne : p.2 ≠ a := fun hh => hnot (by simp [hh.symm])
        have hpa : p.2 < a := by omega
        rw [if_neg (by simpa using hlt)]
        intro q hq
        rcases List.mem_cons.mp hq with h1 | h2
        · rw [h1]; exact hpa
        · have := (List.pairwise_cons.mp hs).1 q h2
          omega

theorem uvSorted_splice (l : List (Nat × Nat)) (a newId : Nat)
    (hs : UvSorted l) (hnot : a ∉ l.map Prod.snd) :
    UvSorted (l.takeWhile (fun p => decide (a < p.2)) ++
      (newId, a) :: l.dropWhile (fun p => decide (a < p.2))) := by
  rw [UvSorted, List.pairwise_append]
  refine ⟨List.Pairwise.sublist (List.takeWhile_sublist _) hs, ?_, ?_⟩
  · rw [List.pairwise_cons]
    exact ⟨fun q hq => dropWhile_snd_lt a l hs hnot q hq,
      List.Pairwise.sublist (List.dropWhile_sublist _) hs⟩
  · intro p hp q hq
    have hpa : a < p.2 := by simpa using List.mem_takeWhile_imp hp
    rcases List.mem_cons.mp hq with h1 | h2
    · rw [h1]; exact hpa
    · have := dropWhile_snd_lt a l hs hnot q h2
      omega

theorem UvSeg.nil_inv {heap : List UpvalueObj} {h s : Option Nat}
    (hseg : UvSeg heap h [] s) : h = s := by
  cases hseg with
  | nil => rfl

theorem entryOf_none_eq_headIdOf (l2 : List (Nat × Nat)) :
    entryOf l2 none = headIdOf l2 := by
  cases l2 <;> rfl

theorem lastIdFrom_some_isSome (x : Nat) :
    ∀ (l : List (Nat × Nat)), ∃ p, lastIdFrom (some x) l = some p := by
  intro l
  induction l generalizing x with
  | nil => exact ⟨x, rfl⟩
  | cons q rest ih => exact ih q.1



theorem getLocalPtr_eq (s : Stack) (offset : Nat) (hchk : s.check = true)
    (hidx : s.fp + offset < s.sp) : s.getLocalPtr offset = .ok (s.fp + offset) := by
  unfold Stack.getLocalPtr
  rw [hchk, if_pos hidx]
  rfl



/-- The splice case of `get_or_create_upvalue_to_stack`, stated over an
explicit decomposition `l = l1 ++ l2` at the insertion point. -/
theorem getOrCreate_insert_aux (st : VmState) (index : Nat) (l l1 l2 : List (Nat × Nat))
    (hch : UvChain st.uvHeap st.cont.openHead l)
    (hs : UvSorted l)
    (hchk : st.stack.check = true)
    (hidx : st.cont.fp + index < st.cont.sp)
    (hnot : st.cont.fp + index ∉ l.map Prod.snd)
    (htw : l.takeWhile (fun p => decide (st.cont.fp + index < p.2)) = l1)
    (hdw : l.dropWhile (fun p => decide (st.cont.fp + index < p.2)) = l2) :
    ∃ st', st.getOrCreateUpvalueToStack index = .ok (st.uvHeap.length, st') ∧
      UvChain st'.uvHeap st'.cont.openHead
        (l1 ++ (st.uvHeap.length, st.cont.fp + index) :: l2) ∧
      UvSorted (l1 ++ (st.uvHeap.length, st.cont.fp + index) :: l2) ∧
      st'.uvHeap.length = st.uvHeap.length + 1 ∧
      st'.stackMem = st.stackMem ∧ st'.cont.sp = st.cont.sp ∧
      st'.cont.fp = st.cont.fp ∧ st'.globals = st.globals ∧ st'.clHeap = st.clHeap := by
  have hfuel : l.length < st.uvHeap.length + 1 :=
    Nat.lt_succ_of_le (UvSeg.length_le hch hs)
  have hptr : st.stack.getLocalPtr index = .ok (st.cont.fp + index) :=
    getLocalPtr_eq st.stack index hchk hidx
  have hsplit : l1 ++ l2 = l := by rw [← htw, ← hdw]; exact List.takeWhile_append_dropWhile _ _
  have hnd : (l.map Prod.fst).Nodup := UvSeg.ids_nodup hch hs
  have hsorted : UvSorted (l1 ++ (st.uvHeap.length, st.cont.fp + index) :: l2) := by
    rw [← htw, ← hdw]
    exact uvSorted_splice l _ st.uvHeap.length hs hnot
  have hch2 : UvSeg st.uvHeap st.cont.openHead (l1 ++ l2) none := by
    rw [hsplit]; exact hch
  obtain ⟨hseg1, hseg2⟩ := UvSeg.split hch2
  have hentry : entryOf l2 none = headIdOf l2 := entryOf_none_eq_headIdOf l2
  have hwalk := uvWalk_insert st.uvHeap (st.cont.fp + index) l st.cont.openHead
    (st.uvHeap.length + 1) none hch hs hnot hfuel
  rw [htw, hdw] at hwalk
  have hnew : (st.uvHeap ++ [(⟨headIdOf l2, .slot (st.cont.fp + index), none⟩ : UpvalueObj)])[st.uvHeap.length]?
      = some ⟨headIdOf l2, .slot (st.cont.fp + index), none⟩ :=
    List.getElem?_concat_length _ _
  have hseg2' : UvSeg (st.uvHeap ++ [⟨headIdOf l2, .slot (st.cont.fp + index), none⟩])
      (headIdOf l2) l2 none := by
    rw [← hentry]; exact hseg2.append_heap
  cases l1 with
  | nil =>
      refine ⟨{ st with
        uvHeap := st.uvHeap ++ [⟨headIdOf l2, .slot (st.cont.fp + index), none⟩],
        cont := { st.cont with openHead := some st.uvHeap.length } }, ?_, ?_, hsorted, ?_,
        rfl, rfl, rfl, rfl, rfl⟩
      · unfold VmState.getOrCreateUpvalueToStack
        rw [hptr, exbind_ok, hwalk]
        rfl
      · exact UvSeg.cons _ _ _ _ _ hnew rfl rfl hseg2'
      · simp
  | cons q l1' =>
      obtain ⟨p, hp⟩ := lastIdFrom_some_isSome q.1 l1'
      have hplast : lastIdFrom none (q :: l1') = some p := hp
      have hpmem : p ∈ (q :: l1').map Prod.fst := by
        rcases lastIdFrom_mem hplast with hm | hcontra
        · exact hm
        · cases hcontra
      have hnd_split : ((q :: l1').map Prod.fst).Nodup ∧ (l2.map Prod.fst).Nodup ∧
          ((q :: l1').map Prod.fst).Disjoint (l2.map Prod.fst) := by
        rw [← hsplit, List.map_append, List.nodup_append] at hnd
        exact hnd
      have hplt : p < st.uvHeap.length := by
        obtain ⟨pp, hpp, hppx⟩ := List.mem_map.mp hpmem
        subst hppx
        exact UvSeg.ids_lt hseg1 pp hpp
      have hpne : p ≠ st.uvHeap.length := by omega
      refine ⟨{ st with
        uvHeap := modifyAt (st.uvHeap ++ [⟨headIdOf l2, .slot (st.cont.fp + index), none⟩]) p
          (fun u => { u with next := some st.uvHeap.length }) }, ?_, ?_, hsorted, ?_,
        rfl, rfl, rfl, rfl, rfl⟩
      · unfold VmState.getOrCreateUpvalueToStack
        rw [hptr, exbind_ok, hwalk]
        simp only [lastIdFrom, hp]
        rfl
      · have hseg1' : UvSeg (st.uvHeap ++ [⟨headIdOf l2, .slot (st.cont.fp + index), none⟩])
            st.cont.openHead (q :: l1') (entryOf l2 none) :=
          hseg1.append_heap
        have hpatched := @UvSeg.patch_last
            (st.uvHeap ++ [⟨headIdOf l2, .slot (st.cont.fp + index), none⟩])
          (some st.uvHeap.length) _ _ _ _ hseg1' hnd_split.1 hplast
        have hnode : (modifyAt (st.uvHeap ++ [⟨headIdOf l2, .slot (st.cont.fp + index), none⟩]) p
            (fun u => { u with next := some st.uvHeap.length }))[st.uvHeap.length]?
            = some ⟨headIdOf l2, .slot (st.cont.fp + index), none⟩ := by
          rw [getElem?_modifyAt_ne _ p st.uvHeap.length _ hpne]
          exact hnew
        have hseg2'' : UvSeg
            (modifyAt (st.uvHeap ++ [⟨headIdOf l2, .slot (st.cont.fp + index), none⟩]) p
              (fun u => { u with next := some st.uvHeap.length }))
            (headIdOf l2) l2 none := by
          refine hseg2'.modifyAt_outside p _ ?_
          intro q2 hq2 hq2p
          exact hnd_split.2.2 hpmem (hq2p ▸ List.mem_map_of_mem Prod.fst hq2)
        exact hpatched.compose (UvSeg.cons _ _ _ _ _ hnode rfl rfl hseg2'')
      · simp [length_modifyAt]

/-- **C4.** `get_or_create_upvalue_to_stack` keeps the open-upvalue list
sorted strictly decreasing by referenced stack slot with no duplicates:
capturing a slot that already has an open upvalue returns that same node
and leaves the state unchanged, while capturing a fresh slot allocates a
new node and splices it in place so the order is preserved. -/
theorem c4_capture (st : VmState) (index : Nat) (l : List (Nat × Nat))
    (hch : UvChain st.uvHeap st.cont.openHead l)
    (hs : UvSorted l)
    (hchk : st.stack.check = true)
    (hidx : st.cont.fp + index < st.cont.sp) :
    (∀ id, (id, st.cont.fp + index) ∈ l →
      st.getOrCreateUpvalueToStack index = .ok (id, st)) ∧
    (st.cont.fp + index ∉ l.map Prod.snd →
      ∃ st', st.getOrCreateUpvalueToStack index = .ok (st.uvHeap.length, st') ∧
        UvChain st'.uvHeap st'.cont.openHead
          (l.takeWhile (fun p => decide (st.cont.fp + index < p.2)) ++
            (st.uvHeap.length, st.cont.fp + index) ::
            l.dropWhile (fun p => decide (st.cont.fp + index < p.2))) ∧
        UvSorted
          (l.takeWhile (fun p => decide (st.cont.fp + index < p.2)) ++
            (st.uvHeap.length, st.cont.fp + index) ::
            l.dropWhile (fun p => decide (st.cont.fp + index < p.2))) ∧
        st'.uvHeap.length = st.uvHeap.length + 1 ∧
        st'.stackMem = st.stackMem ∧ st'.cont.sp = st.cont.sp ∧
        st'.cont.fp = st.cont.fp ∧ st'.globals = st.globals ∧ st'.clHeap = st.clHeap) := by
  constructor
  · intro id hmem
    have hfuel : l.length < st.uvHeap.length + 1 :=
      Nat.lt_succ_of_le (UvSeg.length_le hch hs)
    have hptr : st.stack.getLocalPtr index = .ok (st.cont.fp + index) :=
      getLocalPtr_eq st.stack index hchk hidx
    unfold VmState.getOrCreateUpvalueToStack
    rw [hptr, exbind_ok,
      uvWalk_found st.uvHeap (st.cont.fp + index) id l st.cont.openHead none
        (st.uvHeap.length + 1) none hch hs hmem hfuel]
    rfl
  · intro hnot
    exact getOrCreate_insert_aux st index l _ _ hch hs hchk hidx hnot rfl rfl



theorem getD_set' {α : Type} (xs : List α) (j i : Nat) (a d : α) :
    (xs.set j a).getD i d = if j = i ∧ j < xs.length then a else xs.getD i d := by
  rw [List.getD_eq_getElem?_getD, List.getD_eq_getElem?_getD, List.getElem?_set]
  by_cases h1 : j = i
  · subst h1
    by_cases h2 : j < xs.length
    · simp [h2]
    · simp [h2, List.getElem?_eq_none (Nat.le_of_not_lt h2)]
  · simp [h1]

theorem UvSeg.set_outside {heap : List UpvalueObj} {h l s} (hseg : UvSeg heap h l s)
    (j : Nat) (x : UpvalueObj) (hj : ∀ p ∈ l, p.1 ≠ j) :
    UvSeg (heap.set j x) h l s := by
  induction hseg with
  | nil o => exact .nil o
  | cons id t u rest stop hu hp hc hrest ih =>
      refine .cons id t u rest stop ?_ hp hc (ih (fun p hp => hj p (List.mem_cons_of_mem _ hp)))
      rw [List.getElem?_set_ne (fun hh => hj (id, t) (List.mem_cons_self _ _) hh.symm)]
      exact hu

theorem UvChain.head_eq {heap : List UpvalueObj} {head l} (hch : UvChain heap head l) :
    head = headIdOf l := by
  cases hch with
  | nil => rfl
  | cons id t u rest stop hu hp hc hrest => rfl

theorem takeWhile_nil_of_lt (newSp : Nat) (l : List (Nat × Nat))
    (hlt : ∀ p ∈ l, p.2 < newSp) :
    l.takeWhile (fun q => decide (newSp ≤ q.2)) = [] := by
  cases l with
  | nil => rfl
  | cons p rest =>
      rw [List.takeWhile_cons, if_neg]
      have := hlt p (List.mem_cons_self _ _)
      simp
      omega

theorem dropWhile_all_of_lt (newSp : Nat) (l : List (Nat × Nat))
    (hlt : ∀ p ∈ l, p.2 < newSp) :
    l.dropWhile (fun q => decide (newSp ≤ q.2)) = l := by
  cases l with
  | nil => rfl
  | cons p rest =>
      rw [List.dropWhile_cons, if_neg]
      have := hlt p (List.mem_cons_self _ _)
      simp
      omega



theorem getD_set_none (mem : List (Option Value)) (j i : Nat) :
    (mem.set j none).getD i none = if j = i then none else mem.getD i none := by
  rw [getD_set']
  by_cases h1 : j = i
  · subst h1
    by_cases h2 : j < mem.length
    · rw [if_pos ⟨rfl, h2⟩, if_pos rfl]
    · rw [if_neg (fun hh => h2 hh.2), if_pos rfl, List.getD_eq_getElem?_getD,
        List.getElem?_eq_none (by omega)]
      rfl
  · rw [if_neg (fun hh => h1 hh.1), if_neg h1]

theorem memchar_extend (mem mem' : List (Option Value)) (newSp count : Nat)
    (h : ∀ i, mem'.getD i none = if newSp ≤ i ∧ i < newSp + count then none
      else (mem.set (newSp + count) none).getD i none) :
    ∀ i, mem'.getD i none =
      if newSp ≤ i ∧ i < newSp + count + 1 then none else mem.getD i none := by
  intro i
  rw [h i]
  by_cases hi : newSp ≤ i ∧ i < newSp + count
  · rw [if_pos hi, if_pos (by omega)]
  · rw [if_neg hi, getD_set_none]
    by_cases hieq : newSp + count = i
    · rw [if_pos hieq, if_pos (by omega)]
    · rw [if_neg hieq, if_neg (by omega)]

/-- Specification of the close loop: walking indices from the top down
to `newSp` succeeds, clears exactly those slots, closes exactly the
chain nodes whose slot is `≥ newSp` (moving each slot's value into the
node), and leaves the remainder of the chain as the new head. -/
theorem closeUpvalueLoop_spec :
    ∀ (count : Nat) (mem : List (Option Value)) (heap : List UpvalueObj)
      (head : Option Nat) (newSp : Nat) (l : List (Nat × Nat)),
      UvChain heap head l → UvSorted l →
      (∀ p ∈ l, p.2 < newSp + count) →
      (∀ i, newSp ≤ i → i < newSp + count → (mem.getD i none).isSome) →
      ∃ mem' heap',
        closeUpvalueLoop mem heap head newSp count = .ok (mem', heap',
          headIdOf (l.dropWhile (fun p => decide (newSp ≤ p.2)))) ∧
        mem'.length = mem.length ∧
        (∀ i, mem'.getD i none =
          if newSp ≤ i ∧ i < newSp + count then none else mem.getD i none) ∧
        heap'.length = heap.length ∧
        (∀ p ∈ l.takeWhile (fun q => decide (newSp ≤ q.2)),
          heap'[p.1]? = some ⟨none, .ownClosed, mem.getD p.2 none⟩) ∧
        (∀ j, j ∉ (l.takeWhile (fun q => decide (newSp ≤ q.2))).map Prod.fst →
          heap'[j]? = heap[j]?) ∧
        UvChain heap' (headIdOf (l.dropWhile (fun p => decide (newSp ≤ p.2))))
          (l.dropWhile (fun p => decide (newSp ≤ p.2))) := by
  intro count
  induction count with
  | zero =>
      intro mem heap head newSp l hch hs hlt _
      have hlt' : ∀ p ∈ l, p.2 < newSp := by
        intro p hp
        have := hlt p hp
        omega
      have htw := takeWhile_nil_of_lt newSp l hlt'
      have hdw := dropWhile_all_of_lt newSp l hlt'
      refine ⟨mem, heap, ?_, rfl, ?_, rfl, ?_, ?_, ?_⟩
      · rw [closeUpvalueLoop, hdw, ← hch.head_eq]
      · intro i
        rw [if_neg (by omega)]
      · rw [htw]
        intro p hp
        cases hp
      · intro j _
        rfl
      · rw [hdw, ← hch.head_eq]
        exact hch
  | succ count ih =>
      intro mem heap head newSp l hch hs hlt hsome
      have hvs : (mem.getD (newSp + count) none).isSome :=
        hsome (newSp + count) (by omega) (by omega)
      obtain ⟨v, hv⟩ := Option.isSome_iff_exists.mp hvs
      have hsome' : ∀ i, newSp ≤ i → i < newSp + count →
          ((mem.set (newSp + count) none).getD i none).isSome := by
        intro i h1 h2
        rw [getD_set_none, if_neg (by omega)]
        exact hsome i h1 (by omega)
      cases hch with
      | nil =>
          obtain ⟨mem', heap', hrun, hlen, hmem, hhlen, hclosed, hother, hch'⟩ :=
            ih (mem.set (newSp + count) none) heap none newSp [] (.nil _) hs
              (by intro p hp; cases hp) hsome'
          refine ⟨mem', heap', ?_, by rw [hlen]; simp,
            memchar_extend mem mem' newSp count hmem, hhlen,
            (by intro p hp; simp at hp), hother, hch'⟩
          rw [closeUpvalueLoop, hv]
          exact hrun
      | cons id0 t0 u rest _ hu hp hc hrest =>
          have ht0 : t0 < newSp + count + 1 := hlt (id0, t0) (List.mem_cons_self _ _)
          have hrest_lt : ∀ p ∈ rest, p.2 < t0 := by
            intro p hpm
            exact (List.pairwise_cons.mp hs).1 p hpm
          have hnd := UvSeg.ids_nodup (UvSeg.cons id0 t0 u rest none hu hp hc hrest) hs
          have hid0_notin_rest : id0 ∉ rest.map Prod.fst :=
            (List.nodup_cons.mp (by simpa using hnd)).1
          by_cases hteq : t0 = newSp + count
          · -- close the head node
            have hrest_chain : UvChain (heap.set id0 ⟨none, .ownClosed, some v⟩) u.next rest := by
              refine hrest.set_outside id0 _ ?_
              intro p hpm hpe
              exact hid0_notin_rest (hpe ▸ List.mem_map_of_mem Prod.fst hpm)
            obtain ⟨mem', heap', hrun, hlen, hmem, hhlen, hclosed, hother, hch'⟩ :=
              ih (mem.set (newSp + count) none) (heap.set id0 ⟨none, .ownClosed, some v⟩)
                u.next newSp rest hrest_chain hs.of_cons
                (by
                  intro p hpm
                  have := hrest_lt p hpm
                  omega) hsome'
            have htw : ((id0, t0) :: rest).takeWhile (fun q => decide (newSp ≤ q.2)) =
                (id0, t0) :: rest.takeWhile (fun q => decide (newSp ≤ q.2)) := by
              rw [List.takeWhile_cons, if_pos (by simp; omega)]
            have hdw : ((id0, t0) :: rest).dropWhile (fun q => decide (newSp ≤ q.2)) =
                rest.dropWhile (fun q => decide (newSp ≤ q.2)) := by
              rw [List.dropWhile_cons, if_pos (by simp; omega)]
            have hid0lt : id0 < heap.length := (List.getElem?_eq_some_iff.mp hu).1
            refine ⟨mem', heap', ?_, by rw [hlen]; simp,
              memchar_extend mem mem' newSp count hmem, by rw [hhlen]; simp, ?_, ?_, ?_⟩
            · rw [closeUpvalueLoop, hv]
              simp only [hu, hp, hc]
              rw [if_neg (by omega), if_pos hteq, hdw]
              exact hrun
            · rw [htw]
              intro p hpm
              rcases List.mem_cons.mp hpm with hhd | htl
              · subst hhd
                have hnin : id0 ∉
                    (rest.takeWhile (fun q => decide (newSp ≤ q.2))).map Prod.fst := by
                  intro hmem0
                  obtain ⟨pp, hppm, hppe⟩ := List.mem_map.mp hmem0
                  exact hid0_notin_rest
                    (hppe ▸ List.mem_map_of_mem Prod.fst ((List.takeWhile_sublist _).subset hppm))
                rw [hother id0 hnin, List.getElem?_set_self hid0lt, hteq, hv]
              · have hp2 : p.2 < t0 := hrest_lt p ((List.takeWhile_sublist _).subset htl)
                rw [hclosed p htl, getD_set_none, if_neg (by omega)]
            · rw [htw]
              intro j hj
              simp only [List.map_cons, List.mem_cons, not_or] at hj
              rw [hother j hj.2, List.getElem?_set_ne (fun hh => hj.1 hh.symm)]
            · rw [hdw]
              exact hch'
          · -- the head is strictly below this slot: nothing closes here
            have ht0lt : t0 < newSp + count := by omega
            obtain ⟨mem', heap', hrun, hlen, hmem, hhlen, hclosed, hother, hch'⟩ :=
              ih (mem.set (newSp + count) none) heap (some id0) newSp ((id0, t0) :: rest)
                (UvSeg.cons id0 t0 u rest none hu hp hc hrest) hs
                (by
                  intro p hpm
                  rcases List.mem_cons.mp hpm with hhd | htl
                  · rw [hhd]; exact ht0lt
                  · have := hrest_lt p htl; omega) hsome'
            refine ⟨mem', heap', ?_, by rw [hlen]; simp,
              memchar_extend mem mem' newSp count hmem, hhlen, ?_, hother, hch'⟩
            · rw [closeUpvalueLoop, hv]
              simp only [hu, hp]
              rw [if_pos (by omega)]
              exact hrun
            · intro p hpm
              have hple : p.2 ≤ t0 := by
                rcases List.mem_cons.mp ((List.takeWhile_sublist _).subset hpm) with hhd | htl
                · rw [hhd]
                · have := hrest_lt p htl; omega
              rw [hclosed p hpm, getD_set_none, if_neg (by omega)]


end Tuzuku

namespace Tuzuku

/-- The stack invariant of the spec (checked slot-by-slot by the
`debug_assertions` block of `Stack::check`): the array has its full
`STACK_SIZE` length, `fp ≤ sp ≤ STACK_SIZE`, every slot strictly below
`sp` is defined, every slot from `sp` up is empty. -/
def StackWF (mem : List (Option Value)) (s : Stack) : Prop :=
  mem.length = STACK_SIZE ∧ s.fp ≤ s.sp ∧ s.sp ≤ STACK_SIZE ∧
  ∀ i, i < STACK_SIZE → ((mem.getD i none).isSome ↔ i < s.sp)

theorem check_iff (s : Stack) : s.check = true ↔ (s.sp < STACK_SIZE ∧ s.fp ≤ s.sp) := by
  simp [Stack.check]

/-- A stack whose defined prefix is given explicitly is well-formed. -/
theorem stackWF_concrete (vs : List (Option Value)) (fp : Nat)
    (hvs : ∀ v ∈ vs, v.isSome) (hlen : vs.length ≤ STACK_SIZE) (hfp : fp ≤ vs.length) :
    StackWF (vs ++ List.replicate (STACK_SIZE - vs.length) none) ⟨vs.length, fp⟩ := by
  refine ⟨by simp; omega, hfp, hlen, ?_⟩
  intro i hi
  by_cases hlo : i < vs.length
  · rw [List.getD_eq_getElem?_getD, List.getElem?_append_left hlo]
    have : vs[i]? = some vs[i] := List.getElem?_eq_getElem hlo
    rw [this]
    simpa [hlo] using hvs vs[i] (List.getElem_mem hlo)
  · rw [List.getD_eq_getElem?_getD, List.getElem?_append_right (by omega)]
    have hrep : (List.replicate (STACK_SIZE - vs.length) none)[i - vs.length]? =
        some (none : Option Value) := by
      rw [List.getElem?_replicate, if_pos (by omega)]
    rw [hrep]
    simp
    omega

/-- `Stack::get_local` under explicit assumptions. -/
theorem getLocal_eq (s : Stack) (mem : List (Option Value)) (offset : Nat) (v : Value)
    (hchk : s.check = true) (hlt : s.fp + offset < s.sp)
    (hv : mem.getD (s.fp + offset) none = some v) :
    s.getLocal mem offset = .ok v := by
  unfold Stack.getLocal
  rw [getLocalPtr_eq s offset hchk hlt, exbind_ok, hv]

/-- `Continuation::close_upvalue` meets its spec: rewinds `sp` to
`newSp`, clears the closed-off slots, closes exactly the open upvalues
whose slot is `≥ newSp` and leaves the rest of the list as the new
head. -/
theorem closeUpvalue_spec (st : VmState) (newSp : Nat) (l : List (Nat × Nat))
    (hch : UvChain st.uvHeap st.cont.openHead l) (hs : UvSorted l)
    (hlt : ∀ p ∈ l, p.2 < st.cont.sp)
    (hsome : ∀ i, newSp ≤ i → i < st.cont.sp → (st.stackMem.getD i none).isSome)
    (hchk : st.stack.check = true)
    (hfple : st.cont.fp ≤ newSp)
    (hnsp : newSp < st.cont.sp) :
    ∃ st', st.closeUpvalue newSp = .ok st' ∧
      st'.cont = { st.cont with
        sp := newSp,
        openHead := headIdOf (l.dropWhile (fun p => decide (newSp ≤ p.2))) } ∧
      st'.stackMem.length = st.stackMem.length ∧
      (∀ i, st'.stackMem.getD i none =
        if newSp ≤ i ∧ i < st.cont.sp then none else st.stackMem.getD i none) ∧
      st'.uvHeap.length = st.uvHeap.length ∧
      (∀ p ∈ l.takeWhile (fun q => decide (newSp ≤ q.2)),
        st'.uvHeap[p.1]? = some ⟨none, .ownClosed, st.stackMem.getD p.2 none⟩) ∧
      (∀ j, j ∉ (l.takeWhile (fun q => decide (newSp ≤ q.2))).map Prod.fst →
        st'.uvHeap[j]? = st.uvHeap[j]?) ∧
      UvChain st'.uvHeap st'.cont.openHead
        (l.dropWhile (fun p => decide (newSp ≤ p.2))) ∧
      st'.globals = st.globals ∧ st'.clHeap = st.clHeap ∧ st'.output = st.output := by
  have hcount : newSp + (st.cont.sp - newSp) = st.cont.sp := by omega
  obtain ⟨mem', heap', hrun, hlen, hmem, hhlen, hclosed, hother, hch'⟩ :=
    closeUpvalueLoop_spec (st.cont.sp - newSp) st.stackMem st.uvHeap st.cont.openHead newSp l
      hch hs (by rw [hcount]; exact hlt) (by rw [hcount]; exact hsome)
  have hchk2 : (Stack.mk newSp st.cont.fp).check = true := by
    rw [check_iff]
    have h1 := (check_iff st.stack).mp hchk
    have hsp : st.cont.sp < STACK_SIZE := h1.1
    exact ⟨show newSp < STACK_SIZE by omega, hfple⟩
  refine ⟨{ st with
    stackMem := mem',
    uvHeap := heap',
    cont := { st.cont with
      sp := newSp,
      openHead := headIdOf (l.dropWhile (fun p => decide (newSp ≤ p.2))) } }, ?_,
    rfl, hlen, ?_, hhlen, hclosed, hother, hch', rfl, rfl, rfl⟩
  · unfold VmState.closeUpvalue
    rw [hchk, if_pos hnsp, hrun, exbind_ok]
    show (if (Stack.mk newSp st.cont.fp).check = true then _ else _) = _
    rw [hchk2]
    rfl
  · intro i
    rw [hmem i, hcount]

end Tuzuku

namespace Tuzuku

/-- **C3 (amended).** `perform_return` pops the return value, requires slot
`fp` to hold a `Value::Return` frame (anything else is a fatal
`ret_not_continuation`), closes exactly the open upvalues pointing into
`[fp, sp-1)`, rewinds `sp` to `fp`, restores the saved continuation and
pushes the return value into slot `fp`. -/
theorem c3_perform_return (st : VmState) (l : List (Nat × Nat))
    (hlen : st.stackMem.length = STACK_SIZE)
    (hchk : st.stack.check = true)
    (hf1 : st.cont.fp + 1 < st.cont.sp)
    (hsome : ∀ i, st.cont.fp ≤ i → i < st.cont.sp → (st.stackMem.getD i none).isSome)
    (hch : UvChain st.uvHeap st.cont.openHead l)
    (hs : UvSorted l)
    (hlt : ∀ p ∈ l, p.2 < st.cont.sp - 1) :
    (∀ rv cl ip staleSp savedFp savedHead,
      st.stackMem.getD (st.cont.sp - 1) none = some rv →
      st.stackMem.getD st.cont.fp none = some (.ret cl ip staleSp savedFp savedHead) →
      savedFp ≤ st.cont.fp →
      ∃ st', st.performReturn = .ok st' ∧
        st'.cont = { closure := cl, ip := ip, sp := st.cont.fp + 1, fp := savedFp,
                     openHead := savedHead } ∧
        st'.stackMem.getD st.cont.fp none = some rv ∧
        (∀ i, st.cont.fp < i →
          st'.stackMem.getD i none =
            if i < st.cont.sp then none else st.stackMem.getD i none) ∧
        (∀ p ∈ l.takeWhile (fun q => decide (st.cont.fp ≤ q.2)),
          st'.uvHeap[p.1]? = some ⟨none, .ownClosed, st.stackMem.getD p.2 none⟩) ∧
        (∀ j, j ∉ (l.takeWhile (fun q => decide (st.cont.fp ≤ q.2))).map Prod.fst →
          st'.uvHeap[j]? = st.uvHeap[j]?) ∧
        st'.uvHeap.length = st.uvHeap.length ∧
        st'.globals = st.globals ∧ st'.clHeap = st.clHeap ∧ st'.output = st.output) ∧
    (∀ w,
      st.stackMem.getD st.cont.fp none = some w →
      (∀ cl ip staleSp savedFp savedHead, w ≠ .ret cl ip staleSp savedFp savedHead) →
      st.performReturn = .error .retNotContinuation) := by
  have hself := (check_iff st.stack).mp hchk
  have hsp : st.cont.sp < STACK_SIZE := hself.1
  have hfp : st.cont.fp < st.cont.sp := by omega
  have hsp0 : st.cont.sp ≠ 0 := by omega
  have hrv0 : (st.stackMem.getD (st.cont.sp - 1) none).isSome :=
    hsome (st.cont.sp - 1) (by omega) (by omega)
  have hstep : ∀ rv w, st.stackMem.getD (st.cont.sp - 1) none = some rv →
      st.stackMem.getD st.cont.fp none = some w →
      ∃ st2 : VmState,
        st.performReturn = (match w with
          | .ret closureId ip _staleSp savedFp savedHead => do
              let restored : Stack := ⟨st2.cont.sp, savedFp⟩
              let (mem, s) ← restored.push st2.stackMem rv
              Except.ok { st2 with
                stackMem := mem,
                cont := { closure := closureId, ip := ip, sp := s.sp, fp := savedFp,
                          openHead := savedHead } }
          | _ => Except.error VmError.retNotContinuation) ∧
        st2.cont = { st.cont with
                     sp := st.cont.fp,
                     openHead := headIdOf (l.dropWhile (fun p => decide (st.cont.fp ≤ p.2))) } ∧
        st2.stackMem.length = STACK_SIZE ∧
        (∀ i, st2.stackMem.getD i none =
          if st.cont.fp ≤ i ∧ i < st.cont.sp then none else st.stackMem.getD i none) ∧
        st2.uvHeap.length = st.uvHeap.length ∧
        (∀ p ∈ l.takeWhile (fun q => decide (st.cont.fp ≤ q.2)),
          st2.uvHeap[p.1]? = some ⟨none, .ownClosed, st.stackMem.getD p.2 none⟩) ∧
        (∀ j, j ∉ (l.takeWhile (fun q => decide (st.cont.fp ≤ q.2))).map Prod.fst →
          st2.uvHeap[j]? = st.uvHeap[j]?) ∧
        st2.globals = st.globals ∧ st2.clHeap = st.clHeap ∧ st2.output = st.output := by
    intro rv w hrv hw
    have hpop := popUnwrap_eq st rv hchk hsp0 hrv
    have hchk1 : (Stack.mk (st.cont.sp - 1) st.cont.fp).check = true :=
      (check_iff _).mpr ⟨show st.cont.sp - 1 < STACK_SIZE by omega,
        show st.cont.fp ≤ st.cont.sp - 1 by omega⟩
    have hget : (Stack.mk (st.cont.sp - 1) st.cont.fp).getLocal
        (st.stackMem.set (st.cont.sp - 1) none) 0 = .ok w := by
      refine getLocal_eq _ _ 0 w hchk1 (by show st.cont.fp + 0 < st.cont.sp - 1; omega) ?_
      show (st.stackMem.set (st.cont.sp - 1) none).getD (st.cont.fp + 0) none = some w
      rw [getD_set_none, if_neg (by omega)]
      simpa using hw
    obtain ⟨st2, hrun2, hcont2, hlen2, hmem2, hhlen2, hclosed2, hother2, hch2, hg2, hcl2, hout2⟩ :=
      closeUpvalue_spec
        (st.withStack (st.stackMem.set (st.cont.sp - 1) none) ⟨st.cont.sp - 1, st.cont.fp⟩)
        st.cont.fp l hch hs
        (by
          intro p hp
          show p.2 < st.cont.sp - 1
          exact hlt p hp)
        (by
          intro i h1 h2
          have h2' : i < st.cont.sp - 1 := h2
          show ((st.stackMem.set (st.cont.sp - 1) none).getD i none).isSome
          rw [getD_set_none, if_neg (by omega)]
          exact hsome i h1 (by omega))
        hchk1 (le_refl st.cont.fp)
        (by show st.cont.fp < st.cont.sp - 1; omega)
    refine ⟨st2, ?_, hcont2, by simpa [VmState.withStack, hlen] using hlen2, ?_, hhlen2, ?_,
      hother2, hg2, hcl2, hout2⟩
    · unfold VmState.performReturn
      rw [hpop, exbind_ok]
      show (do
          let continuation ← (Stack.mk (st.cont.sp - 1) st.cont.fp).getLocal
            (st.stackMem.set (st.cont.sp - 1) none) 0
          let stx ← (st.withStack (st.stackMem.set (st.cont.sp - 1) none)
            ⟨st.cont.sp - 1, st.cont.fp⟩).closeUpvalue st.cont.fp
          match continuation with
          | Value.ret closureId ip _staleSp savedFp savedHead => do
              let restored : Stack := ⟨stx.cont.sp, savedFp⟩
              let (mem, s) ← restored.push stx.stackMem rv
              Except.ok { stx with
                stackMem := mem,
                cont := { closure := closureId, ip := ip, sp := s.sp, fp := savedFp,
                          openHead := savedHead } }
          | _ => Except.error VmError.retNotContinuation) = _
      rw [hget, exbind_ok, hrun2, exbind_ok]
    · intro i
      rw [hmem2 i]
      show (if st.cont.fp ≤ i ∧ i < st.cont.sp - 1 then none
            else (st.stackMem.set (st.cont.sp - 1) none).getD i none) = _
      by_cases hcase : st.cont.fp ≤ i ∧ i < st.cont.sp - 1
      · rw [if_pos hcase, if_pos (by omega)]
      · rw [if_neg hcase, getD_set_none]
        by_cases heq : st.cont.sp - 1 = i
        · rw [if_pos heq, if_pos (by omega)]
        · rw [if_neg heq, if_neg (by omega)]
    · intro p hpm
      rw [hclosed2 p hpm]
      show some (UpvalueObj.mk none UvTarget.ownClosed
        ((st.stackMem.set (st.cont.sp - 1) none).getD p.2 none)) = _
      have hp2 : p.2 < st.cont.sp - 1 := hlt p ((List.takeWhile_sublist _).subset hpm)
      rw [getD_set_none, if_neg (by omega)]
  constructor
  · intro rv cl ip staleSp savedFp savedHead hrv hcont hsfp
    obtain ⟨st2, hret, hcont2, hlen2, hmem2, hhlen2, hclosed2, hother2, hg2, hcl2, hout2⟩ :=
      hstep rv _ hrv hcont
    have hsp2 : st2.cont.sp = st.cont.fp := by rw [hcont2]
    have hpush : (Stack.mk st2.cont.sp savedFp).push st2.stackMem rv =
        .ok (st2.stackMem.set st.cont.fp (some rv), ⟨st.cont.fp + 1, savedFp⟩) := by
      rw [hsp2]
      unfold Stack.push
      rw [(check_iff (Stack.mk st.cont.fp savedFp)).mpr
        ⟨show st.cont.fp < STACK_SIZE by omega, show savedFp ≤ st.cont.fp by omega⟩]
      rfl
    refine ⟨{ st2 with
        stackMem := st2.stackMem.set st.cont.fp (some rv),
        cont := { closure := cl, ip := ip, sp := st.cont.fp + 1, fp := savedFp,
                  openHead := savedHead } }, ?_, rfl, ?_, ?_, hclosed2, hother2, hhlen2,
        hg2, hcl2, hout2⟩
    · rw [hret]
      show ((Stack.mk st2.cont.sp savedFp).push st2.stackMem rv >>= fun p =>
          Except.ok { st2 with
            stackMem := p.1,
            cont := { closure := cl, ip := ip, sp := p.2.sp, fp := savedFp,
                      openHead := savedHead } }) = _
      rw [hpush, exbind_ok]
    · show (st2.stackMem.set st.cont.fp (some rv)).getD st.cont.fp none = some rv
      rw [getD_set', if_pos ⟨rfl, by omega⟩]
    · intro i hi
      show (st2.stackMem.set st.cont.fp (some rv)).getD i none = _
      rw [getD_set', if_neg (by omega), hmem2 i]
      by_cases hcase : i < st.cont.sp
      · rw [if_pos (by omega), if_pos hcase]
      · rw [if_neg (by omega), if_neg hcase]
  · intro w hw hnotret
    obtain ⟨rv, hrv⟩ := Option.isSome_iff_exists.mp hrv0
    obtain ⟨st2, hret, -⟩ := hstep rv w hrv hw
    rw [hret]
    cases w <;> first
      | rfl
      | exact absurd rfl (hnotret _ _ _ _ _)

end Tuzuku

namespace Tuzuku

/-- A state about to execute RETURN with an open upvalue referencing the
return-value slot `sp - 1`. -/
def c3CexState : VmState :=
  { cont := { closure := 0, ip := 0, sp := 2, fp := 0, openHead := some 0 },
    stackMem := some (.ret 0 0 2 0 none) :: some (.number 5) ::
      List.replicate 1022 none,
    globals := [],
    uvHeap := [⟨none, .slot 1, none⟩],
    clHeap := [],
    output := [] }

set_option maxRecDepth 8192 in
/-- **C3 counterexample.** The claim says RETURN closes every open upvalue
referencing a slot with index `≥ f` and then restores the caller. In
`c3CexState` the stack is well formed, slot `f = 0` holds a `Value::Return`
and the single open upvalue references slot `1 = sp - 1 ≥ f`, yet
`perform_return` is fatal: the return value is popped before
`close_upvalue(f)` runs, so the close loop only ever visits slots
`f, …, sp - 2` and hits `unreachable!` on the head that points at
`sp - 1`. -/
theorem c3_counterexample :
    StackWF c3CexState.stackMem c3CexState.stack ∧
    UvChain c3CexState.uvHeap c3CexState.cont.openHead [(0, 1)] ∧
    UvSorted [(0, 1)] ∧
    c3CexState.cont.fp ≤ 1 ∧ 1 < c3CexState.cont.sp ∧
    c3CexState.stackMem.getD c3CexState.cont.fp none =
      some (.ret 0 0 2 0 none) ∧
    c3CexState.performReturn = .error .headBeyondSlot := by
  refine ⟨?_, ?_, ?_, by decide, by decide, rfl, rfl⟩
  · refine ⟨by simp [c3CexState, STACK_SIZE], by decide, by decide, ?_⟩
    intro i hi
    match i with
    | 0 => decide
    | 1 => decide
    | n + 2 =>
      show ((List.replicate 1022 (none : Option Value)).getD n none).isSome ↔ n + 2 < 2
      rw [List.getD_eq_getElem?_getD, List.getElem?_replicate]
      by_cases h : n < 1022
      · rw [if_pos h]
        simp
      · rw [if_neg h]
        simp
  · exact UvSeg.cons 0 1 ⟨none, .slot 1, none⟩ [] none rfl rfl rfl (UvSeg.nil none)
  · exact List.pairwise_singleton _ _

/-- A well-formed two-frame state: `fp = 1`, slot 1 holds the caller's
`Return`, slot 2 holds the callee's return value. -/
def c3WitState : VmState :=
  { cont := { closure := 0, ip := 0, sp := 3, fp := 1, openHead := none },
    stackMem := some (.number 7) :: some (.ret 0 5 3 0 none) ::
      some (.number 42) :: List.replicate 1021 none,
    globals := [],
    uvHeap := [],
    clHeap := [],
    output := [] }

set_option maxRecDepth 8192 in
/-- The amended RETURN theorem at `c3WitState`: the caller continuation is
restored with `sp = fp + 1` and the return value lands in slot `fp`. -/
theorem c3_perform_return_witness :
    ∃ st', c3WitState.performReturn = .ok st' ∧
      st'.cont = { closure := 0, ip := 5, sp := 2, fp := 0, openHead := none } ∧
      st'.stackMem.getD 1 none = some (.number 42) := by
  obtain ⟨st', h1, h2, h3, -⟩ :=
    (c3_perform_return c3WitState [] (by simp [c3WitState, STACK_SIZE]) rfl (by decide)
      (by
        intro i h1 h2
        have h1' : 1 ≤ i := h1
        have h2' : i < 3 := h2
        interval_cases i <;> rfl)
      (UvSeg.nil none) List.Pairwise.nil
      (by
        intro p hp
        exact absurd hp (List.not_mem_nil p)))
      |>.1 (.number 42) 0 5 3 0 none rfl rfl (by decide)
  exact ⟨st', h1, h2, h3⟩

end Tuzuku

namespace Tuzuku

/-- A state with one open upvalue (id 0) on slot 2, head of the list. -/
def c4State : VmState :=
  { cont := { closure := 0, ip := 0, sp := 4, fp := 1, openHead := some 0 },
    stackMem := [],
    globals := [],
    uvHeap := [⟨none, .slot 2, none⟩],
    clHeap := [],
    output := [] }

/-- The capture theorem at `c4State`: re-capturing slot 2 returns node 0
and leaves the state unchanged; capturing fresh slot 3 allocates node 1
and splices it before node 0, keeping the list sorted. -/
theorem c4_capture_witness :
    c4State.getOrCreateUpvalueToStack 1 = .ok (0, c4State) ∧
    (∃ st', c4State.getOrCreateUpvalueToStack 2 = .ok (1, st') ∧
      UvChain st'.uvHeap st'.cont.openHead [(1, 3), (0, 2)] ∧
      UvSorted [(1, 3), (0, 2)]) := by
  have hch : UvChain c4State.uvHeap c4State.cont.openHead [(0, 2)] :=
    UvSeg.cons 0 2 ⟨none, .slot 2, none⟩ [] none rfl rfl rfl (UvSeg.nil none)
  have hs : UvSorted [(0, 2)] := List.pairwise_singleton _ _
  constructor
  · exact (c4_capture c4State 1 [(0, 2)] hch hs rfl (by decide)).1 0 (by decide)
  · obtain ⟨st', h1, h2, h3, -⟩ :=
      (c4_capture c4State 2 [(0, 2)] hch hs rfl (by decide)).2 (by decide)
    exact ⟨st', h1, h2, h3⟩

end Tuzuku

namespace Tuzuku

/-- **C5 (amended).** Stack well-formedness `0 ≤ fp ≤ sp ≤ STACK_SIZE` with
slots below `sp` defined and slots at or above `sp` empty. `check` demands
`sp < STACK_SIZE` strictly, so every operation on a full stack is fatal;
`push`, `replace_at`, `get_local`, `set_local` and `close_upvalue`
preserve the invariant, and `pop` preserves it exactly when `fp < sp`. -/
theorem c5_stack_invariant (mem : List (Option Value)) (s : Stack) (v : Value)
    (offset : Nat) (hwf : StackWF mem s) :
    (s.sp < STACK_SIZE →
      s.push mem v = .ok (mem.set s.sp (some v), ⟨s.sp + 1, s.fp⟩) ∧
      StackWF (mem.set s.sp (some v)) ⟨s.sp + 1, s.fp⟩) ∧
    (s.sp = STACK_SIZE →
      s.push mem v = .error .checkFailed ∧ s.pop mem = .error .checkFailed) ∧
    (s.fp < s.sp → s.sp < STACK_SIZE →
      s.pop mem = .ok (mem.getD (s.sp - 1) none, mem.set (s.sp - 1) none,
        ⟨s.sp - 1, s.fp⟩) ∧
      StackWF (mem.set (s.sp - 1) none) ⟨s.sp - 1, s.fp⟩) ∧
    (∀ i, i < s.sp → s.sp < STACK_SIZE →
      ∃ old, mem.getD i none = some old ∧
        s.replaceAt mem i v = .ok (old, mem.set i (some v)) ∧
        StackWF (mem.set i (some v)) s) ∧
    (s.fp + offset < s.sp → s.sp < STACK_SIZE →
      ∃ w, mem.getD (s.fp + offset) none = some w ∧
        s.getLocal mem offset = .ok w) ∧
    (s.fp + offset < s.sp → s.sp < STACK_SIZE →
      s.setLocal mem offset v = .ok (mem.set (s.fp + offset) (some v)) ∧
      StackWF (mem.set (s.fp + offset) (some v)) s) ∧
    (∀ st : VmState, ∀ l : List (Nat × Nat), ∀ newSp : Nat,
      StackWF st.stackMem st.stack → st.cont.sp < STACK_SIZE →
      UvChain st.uvHeap st.cont.openHead l → UvSorted l →
      (∀ p ∈ l, p.2 < st.cont.sp) →
      st.cont.fp ≤ newSp → newSp < st.cont.sp →
      ∃ st', st.closeUpvalue newSp = .ok st' ∧ StackWF st'.stackMem st'.stack) := by
  obtain ⟨hlen, hfp, hsple, hslot⟩ := hwf
  refine ⟨?_, ?_, ?_, ?_, ?_, ?_, ?_⟩
  · intro hsp
    have hchk : s.check = true := (check_iff s).mpr ⟨hsp, hfp⟩
    constructor
    · unfold Stack.push
      rw [hchk]
      rfl
    · refine ⟨by simpa using hlen, show s.fp ≤ s.sp + 1 by omega,
        show s.sp + 1 ≤ STACK_SIZE by omega, ?_⟩
      intro i hi
      show ((mem.set s.sp (some v)).getD i none).isSome ↔ i < s.sp + 1
      rw [getD_set']
      by_cases h1 : s.sp = i
      · rw [if_pos ⟨h1, by omega⟩]
        simp only [Option.isSome_some, true_iff]
        omega
      · rw [if_neg (fun hc => h1 hc.1), hslot i hi]
        omega
  · intro hsp
    have hchk : s.check = false := by
      cases hc : s.check
      · rfl
      · exact absurd ((check_iff s).mp hc).1 (by omega)
    constructor
    · unfold Stack.push
      rw [hchk]
      rfl
    · unfold Stack.pop
      rw [hchk]
      rfl
  · intro hlt hsp
    have hchk : s.check = true := (check_iff s).mpr ⟨hsp, hfp⟩
    constructor
    · unfold Stack.pop
      rw [hchk]
      show (if s.sp = 0 then Except.error VmError.underflow else _) = _
      rw [if_neg (by omega)]
    · refine ⟨by simpa using hlen, show s.fp ≤ s.sp - 1 by omega,
        show s.sp - 1 ≤ STACK_SIZE by omega, ?_⟩
      intro i hi
      show ((mem.set (s.sp - 1) none).getD i none).isSome ↔ i < s.sp - 1
      rw [getD_set_none]
      by_cases h1 : s.sp - 1 = i
      · rw [if_pos h1]
        simp only [Option.isSome_none, Bool.false_eq_true, false_iff]
        omega
      · rw [if_neg h1, hslot i hi]
        omega
  · intro i hi hsp
    have hchk : s.check = true := (check_iff s).mpr ⟨hsp, hfp⟩
    obtain ⟨old, hold⟩ := Option.isSome_iff_exists.mp ((hslot i (by omega)).mpr hi)
    refine ⟨old, hold, ?_, ?_⟩
    · unfold Stack.replaceAt
      rw [hchk]
      show (if i < s.sp then _ else Except.error VmError.indexOutOfBounds) = _
      rw [if_pos hi, hold]
    · refine ⟨by simpa using hlen, hfp, hsple, ?_⟩
      intro j hj
      show ((mem.set i (some v)).getD j none).isSome ↔ j < s.sp
      rw [getD_set']
      by_cases h1 : i = j
      · rw [if_pos ⟨h1, by omega⟩]
        simp only [Option.isSome_some, true_iff]
        omega
      · rw [if_neg (fun hc => h1 hc.1), hslot j hj]
  · intro hlt hsp
    have hchk : s.check = true := (check_iff s).mpr ⟨hsp, hfp⟩
    obtain ⟨w, hw⟩ := Option.isSome_iff_exists.mp ((hslot (s.fp + offset) (by omega)).mpr hlt)
    exact ⟨w, hw, getLocal_eq s mem offset w hchk hlt hw⟩
  · intro hlt hsp
    have hchk : s.check = true := (check_iff s).mpr ⟨hsp, hfp⟩
    obtain ⟨old, hold⟩ :=
      Option.isSome_iff_exists.mp ((hslot (s.fp + offset) (by omega)).mpr hlt)
    constructor
    · unfold Stack.setLocal Stack.replaceAt
      rw [hchk]
      show ((if s.fp + offset < s.sp then _ else Except.error VmError.indexOutOfBounds)
        >>= _) = _
      rw [if_pos hlt, hold]
      rfl
    · refine ⟨by simpa using hlen, hfp, hsple, ?_⟩
      intro j hj
      show ((mem.set (s.fp + offset) (some v)).getD j none).isSome ↔ j < s.sp
      rw [getD_set']
      by_cases h1 : s.fp + offset = j
      · rw [if_pos ⟨h1, by omega⟩]
        simp only [Option.isSome_some, true_iff]
        omega
      · rw [if_neg (fun hc => h1 hc.1), hslot j hj]
  · intro st l newSp hwf' hsp hch hs hlt hfple hnsp
    obtain ⟨hlen', hfp', hsple', hslot'⟩ := hwf'
    have hspeq : st.stack.sp = st.cont.sp := rfl
    have hfpeq : st.stack.fp = st.cont.fp := rfl
    obtain ⟨st', hrun, hcont', hlen2, hmem2, -, -, -, -, -, -⟩ :=
      closeUpvalue_spec st newSp l hch hs hlt
        (by
          intro i h1 h2
          exact (hslot' i (by omega)).mpr h2)
        ((check_iff st.stack).mpr ⟨hsp, hfp'⟩) hfple hnsp
    refine ⟨st', hrun, ?_⟩
    have hstk : st'.stack = ⟨newSp, st.cont.fp⟩ := by
      show (⟨st'.cont.sp, st'.cont.fp⟩ : Stack) = _
      rw [hcont']
    rw [hstk]
    refine ⟨by rw [hlen2]; exact hlen', show st.cont.fp ≤ newSp from hfple,
      show newSp ≤ STACK_SIZE by omega, ?_⟩
    intro i hi
    show (st'.stackMem.getD i none).isSome ↔ i < newSp
    rw [hmem2 i]
    by_cases h1 : newSp ≤ i
    · by_cases h2 : i < st.cont.sp
      · rw [if_pos ⟨h1, h2⟩]
        simp only [Option.isSome_none, Bool.false_eq_true, false_iff]
        omega
      · rw [if_neg (fun hc => h2 hc.2), hslot' i hi]
        omega
    · rw [if_neg (fun hc => h1 hc.1), hslot' i hi]
      omega

end Tuzuku

namespace Tuzuku

/-- One defined slot below `fp = sp = 1`. -/
def c5CexMem : List (Option Value) := some Value.nil :: List.replicate 1023 none

set_option maxRecDepth 8192 in
/-- **C5 counterexample.** The claim says every stack operation preserves
`fp ≤ sp`. With `fp = sp = 1` the stack is well formed, yet `pop`
succeeds (its `check` runs before `sp` is decremented) and leaves
`fp = 1 > sp = 0`: the violation is produced, not prevented, and only a
later operation's `check` is fatal. -/
theorem c5_counterexample :
    StackWF c5CexMem ⟨1, 1⟩ ∧
    Stack.pop ⟨1, 1⟩ c5CexMem =
      .ok (some Value.nil, c5CexMem.set 0 none, ⟨0, 1⟩) ∧
    ¬ StackWF (c5CexMem.set 0 none) ⟨0, 1⟩ := by
  refine ⟨?_, rfl, ?_⟩
  · exact stackWF_concrete [some Value.nil] 1 (by decide) (by decide) (by decide)
  · intro h
    exact absurd h.2.1 (by decide)

set_option maxRecDepth 8192 in
/-- The amended stack theorem at a concrete one-value stack: `push`
succeeds and keeps the invariant. -/
theorem c5_stack_invariant_witness :
    Stack.push ⟨1, 0⟩ c5CexMem (.number 3) =
      .ok (c5CexMem.set 1 (some (.number 3)), ⟨2, 0⟩) ∧
    StackWF (c5CexMem.set 1 (some (.number 3))) ⟨2, 0⟩ :=
  (c5_stack_invariant c5CexMem ⟨1, 0⟩ (.number 3) 0
    (stackWF_concrete [some Value.nil] 0 (by decide) (by decide) (by decide))).1
    (by decide)

end Tuzuku
